import Mathlib

/-!
Verification of the p7microgrid time-series energy-window core.

Shallow embedding of the analytical core of `microgrid-starter-denmark`
(battery simulator, window search engine, series utilities, availability-run
detector) over exact rational arithmetic.  Timestamps and time deltas are
modelled as rational numbers of seconds; powers in kW and energies in kWh are
rationals.  Python `float` arithmetic is idealised as exact rational
arithmetic; the explicit tolerance constants (`1e-12`, `1e-9`, `1e-6`) of the
source are kept verbatim as rationals.
-/

namespace Microgrid

/-! ## Configuration constants (`api/config.py`) -/

/-- `BATTERY_CAPACITY_KWH = 10.0` -/
def BATTERY_CAPACITY_KWH : ℚ := 10

/-- `INITIAL_SOC_KWH = 5.0` -/
def INITIAL_SOC_KWH : ℚ := 5

/-- `CHARGE_EFF = 0.95` -/
def CHARGE_EFF : ℚ := 19/20

/-- `DISCHARGE_EFF = 0.95` -/
def DISCHARGE_EFF : ℚ := 19/20

/-- `SIM_STEP = timedelta(minutes=10)`, expressed in seconds. -/
def SIM_STEP : ℚ := 600

/-! ## Battery simulator (`api/services/battery.py`) -/

/-- The state of `BatterySim`: `self.capacity` and `self.soc`, both kWh. -/
structure BatterySim where
  capacity : ℚ
  soc : ℚ
  deriving DecidableEq

/-- `BatterySim.__init__(capacity_kwh, soc_kwh)`:
`self.capacity = float(capacity_kwh)`;
`self.soc = max(0.0, min(float(soc_kwh), self.capacity))`. -/
def BatterySim.init (capacity_kwh soc_kwh : ℚ) : BatterySim :=
  { capacity := capacity_kwh
    soc := max 0 (min soc_kwh capacity_kwh) }

/-- Return value of `BatterySim.status`. -/
structure BatteryStatus where
  now_soc_kwh : ℚ
  capacity_kwh : ℚ
  soc_pct : ℚ
  as_of : ℚ
  deriving DecidableEq

/-- `BatterySim.status(as_of)`:
`pct = 100.0 * self.soc / self.capacity if self.capacity > 0 else 0.0`. -/
def BatterySim.status (b : BatterySim) (as_of : ℚ) : BatteryStatus :=
  { now_soc_kwh := b.soc
    capacity_kwh := b.capacity
    soc_pct := if 0 < b.capacity then 100 * b.soc / b.capacity else 0
    as_of := as_of }

/-- `BatterySim.step(gen_kw, load_kw, dt)` with `dt` in seconds:
`h = dt.total_seconds()/3600.0`;
`self.soc = min(self.capacity, self.soc + max(0.0, gen_kw) * CHARGE_EFF * h)`;
`self.soc = max(0.0, self.soc - max(0.0, load_kw) * h / DISCHARGE_EFF)`. -/
def BatterySim.step (b : BatterySim) (gen_kw load_kw dt : ℚ) : BatterySim :=
  let h := dt / 3600
  let soc1 := min b.capacity (b.soc + max 0 gen_kw * CHARGE_EFF * h)
  let soc2 := max 0 (soc1 - max 0 load_kw * h / DISCHARGE_EFF)
  { b with soc := soc2 }

/-- A forecast row `{'ts': ..., 'wind_kw': ...}`; `ts` in seconds. -/
structure Row where
  ts : ℚ
  wind_kw : ℚ
  deriving DecidableEq

/-- Body of the forecast-cursor advance loop, structurally recursive on the
number `fuel` of cursor positions left (`i` can be incremented at most
`len(forecast) - i` times before `i + 1 < len(forecast)` fails, so the fuel
supplied by `advanceIdx` never truncates the loop). -/
def advanceIdxGo (forecast : List Row) (t : ℚ) : ℕ → ℕ → ℕ
  | 0, i => i
  | fuel + 1, i =>
    if i + 1 < forecast.length ∧ (forecast.getD (i + 1) ⟨0, 0⟩).ts ≤ t then
      advanceIdxGo forecast t fuel (i + 1)
    else i

/-- The forecast-cursor advance loop shared by `simulate_runtime` and
`simulate_until_targets`:
`while i + 1 < len(forecast) and forecast[i + 1]["ts"] <= t: i += 1`. -/
def advanceIdx (forecast : List Row) (t : ℚ) (i : ℕ) : ℕ :=
  advanceIdxGo forecast t (forecast.length - i) i

lemma advanceIdxGo_stop (forecast : List Row) (t : ℚ) :
    ∀ (fuel i : ℕ), forecast.length - i ≤ fuel →
    advanceIdxGo forecast t fuel i + 1 < forecast.length →
    t < (forecast.getD (advanceIdxGo forecast t fuel i + 1) ⟨0, 0⟩).ts := by
  intro fuel
  induction fuel with
  | zero =>
    intro i hfuel hlt
    simp only [advanceIdxGo] at hlt
    omega
  | succ fuel ih =>
    intro i hfuel
    simp only [advanceIdxGo]
    split_ifs with h
    · exact ih (i + 1) (by omega)
    · intro hlt
      push_neg at h
      exact lt_of_not_le (fun hle => absurd (h hlt) (not_lt_of_le hle))

lemma advanceIdx_stop (forecast : List Row) (t : ℚ) (i : ℕ) :
    advanceIdx forecast t i + 1 < forecast.length →
    t < (forecast.getD (advanceIdx forecast t i + 1) ⟨0, 0⟩).ts :=
  advanceIdxGo_stop forecast t (forecast.length - i) i le_rfl

/-- Upper bound for all timestamps in a forecast, used as a termination
measure for the simulation loops. -/
def tsBound (forecast : List Row) : ℚ :=
  (forecast.map Row.ts).foldr max 0

lemma le_tsBound {forecast : List Row} {r : Row} (hr : r ∈ forecast) :
    r.ts ≤ tsBound forecast := by
  induction forecast with
  | nil => cases hr
  | cons x xs ih =>
    rw [List.mem_cons] at hr
    simp only [tsBound, List.map_cons, List.foldr_cons]
    rcases hr with rfl | h
    · exact le_max_left _ _
    · exact le_trans (ih h) (le_max_right _ _)

lemma getD_mem {α : Type} {l : List α} {k : ℕ} (h : k < l.length) (d : α) :
    l.getD k d ∈ l := by
  rw [List.getD_eq_getElem l d h]
  exact List.getElem_mem h

/-- One fixed simulation increment strictly decreases the ceiling measure
`⌈(a - t)/SIM_STEP⌉` as long as the bound `a` is still ahead of `t`. -/
lemma simMeasure_decreases {a t : ℚ} (h : t < a) :
    (⌈(a - (t + SIM_STEP)) / SIM_STEP⌉).toNat < (⌈(a - t) / SIM_STEP⌉).toNat := by
  have h2 : (0:ℚ) < (a - t) / SIM_STEP := by
    have : (0:ℚ) < a - t := by linarith
    have hs : (0:ℚ) < SIM_STEP := by norm_num [SIM_STEP]
    positivity
  have h3 : (1:ℤ) ≤ ⌈(a - t) / SIM_STEP⌉ := Int.ceil_pos.mpr h2
  have h4 : (a - (t + SIM_STEP)) / SIM_STEP = (a - t) / SIM_STEP - 1 := by
    norm_num [SIM_STEP]; ring
  rw [h4, Int.ceil_sub_one]
  omega

/-! ### A generic terminating loop combinator

The two battery `while` loops are expressed as repeated application of a
one-iteration step function `next : σ → ρ ⊕ σ` (`inl` = the loop returns,
`inr` = the loop continues with a new state), packaged with a decreasing
natural measure.  This keeps each loop body a plain definition that mirrors
the Python iteration statement for statement. -/

structure LoopSpec (σ ρ : Type) where
  next : σ → ρ ⊕ σ
  meas : σ → ℕ
  dec : ∀ s s', next s = .inr s' → meas s' < meas s

def LoopSpec.run {σ ρ : Type} (L : LoopSpec σ ρ) (s : σ) : ρ :=
  match h : L.next s with
  | .inl r => r
  | .inr s' => L.run s'
termination_by L.meas s
decreasing_by exact L.dec s s' h

lemma LoopSpec.run_inl {σ ρ : Type} (L : LoopSpec σ ρ) {s : σ} {r : ρ}
    (h : L.next s = .inl r) : L.run s = r := by
  unfold LoopSpec.run
  rw [h]

lemma LoopSpec.run_inr {σ ρ : Type} (L : LoopSpec σ ρ) {s s' : σ}
    (h : L.next s = .inr s') : L.run s = L.run s' := by
  conv_lhs => unfold LoopSpec.run
  rw [h]

/-- Fuelled evaluator for `LoopSpec.run`; structurally recursive so that
concrete runs can be checked by `rfl`/`decide`. -/
def LoopSpec.runFuel {σ ρ : Type} (L : LoopSpec σ ρ) : ℕ → σ → Option ρ
  | 0, _ => none
  | n + 1, s =>
    match L.next s with
    | .inl r => some r
    | .inr s' => L.runFuel n s'

lemma LoopSpec.runFuel_sound {σ ρ : Type} (L : LoopSpec σ ρ) :
    ∀ (n : ℕ) (s : σ) (r : ρ), L.runFuel n s = some r → L.run s = r := by
  intro n
  induction n with
  | zero => intro s r h; cases h
  | succ n ih =>
    intro s r h
    unfold LoopSpec.runFuel at h
    cases hn : L.next s with
    | inl r' =>
      rw [hn] at h
      cases h
      exact L.run_inl hn
    | inr s' =>
      rw [hn] at h
      rw [L.run_inr hn]
      exact ih s' r h

/-- Invariant-preservation principle for `LoopSpec.run`. -/
lemma LoopSpec.run_invariant {σ ρ : Type} (L : LoopSpec σ ρ)
    (I : σ → Prop) (R : ρ → Prop)
    (hexit : ∀ s r, I s → L.next s = .inl r → R r)
    (hstep : ∀ s s', I s → L.next s = .inr s' → I s') :
    ∀ s, I s → R (L.run s) := by
  intro s
  induction s using LoopSpec.run.induct L with
  | case1 s r h => intro hI; rw [L.run_inl h]; exact hexit s r hI h
  | case2 s s' h ih => intro hI; rw [L.run_inr h]; exact ih (hstep s s' hI h)

/-- Return value of `BatterySim.simulate_runtime`. -/
structure RuntimeResult where
  load_kw : ℚ
  start_soc_kwh : ℚ
  runtime_minutes : ℤ
  end_time : ℚ
  depleted : Bool
  deriving DecidableEq

/-- Loop state of the battery simulation loops: the mutated `self`, the
forecast cursor `i` and the simulated time `t`. -/
structure SimSt where
  b : BatterySim
  i : ℕ
  t : ℚ
  deriving DecidableEq

/-- The staircase generation lookup shared by both simulation loops:
`gen_kw = forecast[i]["wind_kw"] if i < len(forecast) else 0.0`. -/
def genAt (forecast : List Row) (i : ℕ) : ℚ :=
  if i < forecast.length then (forecast.getD i ⟨0, 0⟩).wind_kw else 0

/-- One iteration of the `while True` body of `BatterySim.simulate_runtime`:
advance the cursor, `step` with the staircase generation value, advance time,
then return depleted (`soc <= 1e-6`), return not-depleted
(`i >= len(forecast) - 1`), or continue.  `runtime_minutes` is
`int((t - start).total_seconds() // 60)`, i.e. `((t' - start)/60).floor`. -/
def runtimeNext (forecast : List Row) (load_kw start start_soc : ℚ)
    (s : SimSt) : (BatterySim × RuntimeResult) ⊕ SimSt :=
  let i' := advanceIdx forecast s.t s.i
  let gen := genAt forecast i'
  let b' := s.b.step gen load_kw SIM_STEP
  let t' := s.t + SIM_STEP
  if b'.soc ≤ 1/10^6 then
    .inl (b', ⟨load_kw, start_soc, ((t' - start) / 60).floor, t', true⟩)
  else if forecast.length - 1 ≤ i' then
    .inl (b', ⟨load_kw, start_soc, ((t' - start) / 60).floor, t', false⟩)
  else
    .inr ⟨b', i', t'⟩

lemma runtimeNext_inr {forecast : List Row} {load_kw start start_soc : ℚ}
    {s s' : SimSt} (h : runtimeNext forecast load_kw start start_soc s = .inr s') :
    s'.t = s.t + SIM_STEP ∧ advanceIdx forecast s.t s.i + 1 < forecast.length := by
  simp only [runtimeNext] at h
  split_ifs at h
  all_goals cases h
  all_goals exact ⟨rfl, by omega⟩

/-- The simulation-time measure: number of `SIM_STEP` increments left until
the forecast's last timestamp is passed. -/
def simMeasure (forecast : List Row) (s : SimSt) : ℕ :=
  (⌈(tsBound forecast - s.t) / SIM_STEP⌉).toNat

lemma runtimeNext_dec (forecast : List Row) (load_kw start start_soc : ℚ) :
    ∀ s s', runtimeNext forecast load_kw start start_soc s = .inr s' →
      simMeasure forecast s' < simMeasure forecast s := by
  intro s s' h
  obtain ⟨ht, hi⟩ := runtimeNext_inr h
  have hts := advanceIdx_stop forecast s.t s.i hi
  have hb : (forecast.getD (advanceIdx forecast s.t s.i + 1) ⟨0, 0⟩).ts ≤ tsBound forecast :=
    le_tsBound (getD_mem hi ⟨0, 0⟩)
  unfold simMeasure
  rw [ht]
  exact simMeasure_decreases (lt_of_lt_of_le hts hb)

/-- The `while True` loop of `BatterySim.simulate_runtime` as a `LoopSpec`. -/
def runtimeLoop (forecast : List Row) (load_kw start start_soc : ℚ) :
    LoopSpec SimSt (BatterySim × RuntimeResult) :=
  ⟨runtimeNext forecast load_kw start start_soc, simMeasure forecast,
   runtimeNext_dec forecast load_kw start start_soc⟩

/-- `BatterySim.simulate_runtime(forecast, load_kw, start)`; the returned pair
is (mutated `self`, result dict). -/
def BatterySim.simulate_runtime (b : BatterySim) (forecast : List Row)
    (load_kw start : ℚ) : BatterySim × RuntimeResult :=
  (runtimeLoop forecast load_kw start b.soc).run ⟨b, 0, start⟩

/-! ## Theorems -/

/-- The SOC invariant of §7 of the spec: `0 ≤ soc ≤ capacity`. -/
def SocInv (b : BatterySim) : Prop :=
  0 ≤ b.soc ∧ b.soc ≤ b.capacity

instance (b : BatterySim) : Decidable (SocInv b) := by
  unfold SocInv; infer_instance

lemma socInv_init {capacity_kwh : ℚ} (hc : 0 ≤ capacity_kwh) (soc_kwh : ℚ) :
    SocInv (BatterySim.init capacity_kwh soc_kwh) := by
  constructor
  · exact le_max_left 0 _
  · exact max_le hc (min_le_right _ _)

lemma socInv_step {b : BatterySim} (hb : SocInv b) {dt : ℚ} (hdt : 0 ≤ dt)
    (gen_kw load_kw : ℚ) : SocInv (b.step gen_kw load_kw dt) := by
  obtain ⟨h0, hc⟩ := hb
  have hcap : 0 ≤ b.capacity := le_trans h0 hc
  have hdis : 0 ≤ max 0 load_kw * (dt / 3600) / DISCHARGE_EFF := by
    have : (0:ℚ) < DISCHARGE_EFF := by norm_num [DISCHARGE_EFF]
    positivity
  constructor
  · exact le_max_left 0 _
  · show max 0 (min b.capacity _ - _) ≤ b.capacity
    refine max_le hcap (le_trans (sub_le_self _ hdis) (min_le_left _ _))

lemma socInv_runtimeNext_inl {forecast : List Row} {load_kw start start_soc : ℚ}
    {s : SimSt} {r : BatterySim × RuntimeResult} (hI : SocInv s.b)
    (h : runtimeNext forecast load_kw start start_soc s = .inl r) :
    SocInv r.1 := by
  simp only [runtimeNext] at h
  split_ifs at h
  all_goals cases h
  all_goals exact socInv_step hI (by norm_num [SIM_STEP]) _ _

lemma socInv_runtimeNext_inr {forecast : List Row} {load_kw start start_soc : ℚ}
    {s s' : SimSt} (hI : SocInv s.b)
    (h : runtimeNext forecast load_kw start start_soc s = .inr s') :
    SocInv s'.b := by
  simp only [runtimeNext] at h
  split_ifs at h
  all_goals cases h
  all_goals exact socInv_step hI (by norm_num [SIM_STEP]) _ _

lemma socInv_simulate_runtime {b : BatterySim} (hb : SocInv b)
    (forecast : List Row) (load_kw start : ℚ) :
    SocInv (b.simulate_runtime forecast load_kw start).1 := by
  unfold BatterySim.simulate_runtime
  refine LoopSpec.run_invariant (runtimeLoop forecast load_kw start b.soc)
    (fun s => SocInv s.b) (fun r => SocInv r.1) ?_ ?_ _ hb
  · intro s r hI hnext
    exact socInv_runtimeNext_inl hI hnext
  · intro s s' hI hnext
    exact socInv_runtimeNext_inr hI hnext

lemma runtimeNext_nil (load_kw start start_soc : ℚ) (s : SimSt) :
    runtimeNext [] load_kw start start_soc s =
      .inl (s.b.step 0 load_kw SIM_STEP,
        ⟨load_kw, start_soc, ((s.t + SIM_STEP - start) / 60).floor, s.t + SIM_STEP,
         decide ((s.b.step 0 load_kw SIM_STEP).soc ≤ 1/10^6)⟩) := by
  have hadv : advanceIdx [] s.t s.i = s.i := by
    simp [advanceIdx, advanceIdxGo]
  simp only [runtimeNext, hadv, genAt, List.length_nil, Nat.not_lt_zero, if_false]
  split_ifs with h1 h2
  · simpa using h1
  · simpa using not_le.mp h1
  · omega

/-- **C10.** On an empty forecast list, `simulate_runtime` performs exactly one
simulation step with generation treated as 0 kW (mutating the live SOC by one
fixed 10-minute `SIM_STEP`), then returns with `runtime_minutes = 10`;
`depleted` is true exactly when that single step leaves the SOC at most
`1e-6` kWh. -/
theorem simulate_runtime_empty_forecast (b : BatterySim) (load_kw start : ℚ) :
    (b.simulate_runtime [] load_kw start).1 = b.step 0 load_kw SIM_STEP ∧
    (b.simulate_runtime [] load_kw start).2.runtime_minutes = 10 ∧
    (b.simulate_runtime [] load_kw start).2.end_time = start + SIM_STEP ∧
    ((b.simulate_runtime [] load_kw start).2.depleted = true ↔
      (b.step 0 load_kw SIM_STEP).soc ≤ 1/10^6) := by
  unfold BatterySim.simulate_runtime
  rw [LoopSpec.run_inl _ (runtimeNext_nil load_kw start b.soc ⟨b, 0, start⟩)]
  refine ⟨rfl, ?_, rfl, ?_⟩
  · show ((start + SIM_STEP - start) / 60).floor = 10
    have h : (start + SIM_STEP - start) / 60 = 10 := by norm_num [SIM_STEP]
    rw [h]
    decide
  · show decide _ = true ↔ _
    exact decide_eq_true_iff

/-- A zero-generation forecast covering the whole run up to time `Tend`
(the claim's \"forecast long enough to cover depletion\": the second row's
timestamp lies beyond the depletion time, so the cursor never reaches the
final row and the loop cannot exit undepleted). -/
def zeroForecast (Tend : ℚ) : List Row := [⟨0, 0⟩, ⟨Tend, 0⟩]

lemma zf_advance (Tend t : ℚ) (ht : t < Tend) :
    advanceIdx (zeroForecast Tend) t 0 = 0 := by
  have h : ¬ (Tend ≤ t) := not_le.mpr ht
  simp [advanceIdx, advanceIdxGo, zeroForecast, h]

/-- One zero-generation step under load `L`: `min` does nothing (the SOC only
falls) and the drain over the 10-minute step is
`L·(1/6)/DISCHARGE_EFF = 10·L/57` kWh, floored at 0. -/
lemma drain_step (cap L sc : ℚ) (hL : 0 ≤ L) (hcap : sc ≤ cap) :
    BatterySim.step ⟨cap, sc⟩ 0 L SIM_STEP = ⟨cap, max 0 (sc - 10 * L / 57)⟩ := by
  unfold BatterySim.step
  norm_num [SIM_STEP, CHARGE_EFF, DISCHARGE_EFF]
  rw [min_eq_right hcap, max_eq_right hL]
  congr 1
  ring

/-- A non-final iteration of the depletion run: the SOC stays above the
`1e-6` threshold, so the loop continues with `10·L/57` kWh drained. -/
lemma drain_next_iter (Tend cap L S0 start sc t : ℚ) (hL : 0 ≤ L)
    (hcap : sc ≤ cap) (heps : ¬ sc - 10 * L / 57 ≤ 1/10^6) (ht : t < Tend) :
    runtimeNext (zeroForecast Tend) L start S0 ⟨⟨cap, sc⟩, 0, t⟩ =
      .inr ⟨⟨cap, sc - 10 * L / 57⟩, 0, t + SIM_STEP⟩ := by
  have hmax : max (0:ℚ) (sc - 10 * L / 57) = sc - 10 * L / 57 := by
    push_neg at heps
    exact max_eq_right (by linarith)
  simp only [runtimeNext, zf_advance Tend t ht]
  norm_num [zeroForecast, genAt]
  rw [drain_step cap L sc hL hcap, hmax]
  have hc : ¬ (({ capacity := cap, soc := sc - 10 * L / 57 } : BatterySim).soc
      ≤ 1/1000000) := by
    simpa using heps
  rw [if_neg hc]

/-- The final iteration of the depletion run: the drained SOC falls to the
`1e-6` threshold or below, so the loop returns `depleted = true` with
`runtime_minutes = ⌊(t' - start)/60⌋`. -/
lemma drain_next_exit (Tend cap L S0 start sc t : ℚ) (hL : 0 ≤ L)
    (hcap : sc ≤ cap) (heps : sc - 10 * L / 57 ≤ 1/10^6) (ht : t < Tend) :
    runtimeNext (zeroForecast Tend) L start S0 ⟨⟨cap, sc⟩, 0, t⟩ =
      .inl (⟨cap, max 0 (sc - 10 * L / 57)⟩,
        ⟨L, S0, ((t + SIM_STEP - start) / 60).floor, t + SIM_STEP, true⟩) := by
  simp only [runtimeNext, zf_advance Tend t ht]
  norm_num [zeroForecast, genAt]
  rw [drain_step cap L sc hL hcap]
  have hc : (({ capacity := cap, soc := max 0 (sc - 10 * L / 57) } : BatterySim).soc
      ≤ 1/1000000) := by
    simpa using max_le (show (0:ℚ) ≤ 1/10^6 by norm_num) heps
  rw [if_pos hc]

/-- The depletion run in closed form: starting from SOC `sc > 1e-6` at time
`t` (zero generation, load `L > 0`, forecast reaching past the run), the loop
performs exactly `k = ⌈(sc - 1e-6)·(6·η)/L⌉` steps of `10·L/57` kWh each and
exits depleted at time `t + k·SIM_STEP`. -/
lemma drain_loop_run (Tend cap L S0 start : ℚ) (hL : 0 < L) :
    ∀ (k : ℕ) (sc t : ℚ), sc ≤ cap → 1/10^6 < sc →
      (k : ℤ) = ⌈(sc - 1/10^6) * (6 * DISCHARGE_EFF) / L⌉ →
      t + SIM_STEP * k ≤ Tend →
      (runtimeLoop (zeroForecast Tend) L start S0).run ⟨⟨cap, sc⟩, 0, t⟩ =
        (⟨cap, max 0 (sc - 10 * L / 57 * k)⟩,
         ⟨L, S0, ((t + SIM_STEP * k - start) / 60).floor, t + SIM_STEP * k, true⟩) := by
  intro k
  induction k with
  | zero =>
    intro sc t hcap hsc hk hT
    exfalso
    have hsub : (0:ℚ) < sc - 1/10^6 := by linarith
    have hpos : (0:ℚ) < (sc - 1/10^6) * (6 * DISCHARGE_EFF) / L :=
      div_pos (mul_pos hsub (by norm_num [DISCHARGE_EFF])) hL
    have h1 : (1:ℤ) ≤ ⌈(sc - 1/10^6) * (6 * DISCHARGE_EFF) / L⌉ :=
      Int.ceil_pos.mpr hpos
    push_cast at hk
    omega
  | succ k ih =>
    intro sc t hcap hsc hk hT
    have hL0 : L ≠ 0 := ne_of_gt hL
    have hexp : SIM_STEP * ((k:ℚ) + 1) = SIM_STEP * (k:ℚ) + SIM_STEP := by ring
    push_cast at hT
    rw [hexp] at hT
    have hkc : (0:ℚ) ≤ (k:ℚ) := by positivity
    have hsk : (0:ℚ) ≤ SIM_STEP * (k:ℚ) :=
      mul_nonneg (by norm_num [SIM_STEP]) hkc
    have ht : t < Tend := by
      have hs : (0:ℚ) < SIM_STEP := by norm_num [SIM_STEP]
      linarith
    by_cases hlast : sc - 10 * L / 57 ≤ 1/10^6
    · have hle1 : (sc - 1/10^6) * (6 * DISCHARGE_EFF) / L ≤ 1 := by
        rw [div_le_one hL]
        norm_num [DISCHARGE_EFF]
        linarith
      have hceil_le : ⌈(sc - 1/10^6) * (6 * DISCHARGE_EFF) / L⌉ ≤ 1 :=
        Int.ceil_le.mpr (by exact_mod_cast hle1)
      have hk0 : k = 0 := by
        push_cast at hk
        omega
      subst hk0
      rw [LoopSpec.run_inl _
        (drain_next_exit Tend cap L S0 start sc t (le_of_lt hL) hcap hlast ht)]
      push_cast
      norm_num
    · push_neg at hlast
      have hcap' : sc - 10 * L / 57 ≤ cap := by
        have : (0:ℚ) < 10 * L / 57 := by positivity
        linarith
      have harg : (sc - 10 * L / 57 - 1/10^6) * (6 * DISCHARGE_EFF) / L
          = (sc - 1/10^6) * (6 * DISCHARGE_EFF) / L - 1 := by
        norm_num [DISCHARGE_EFF]
        field_simp
        ring
      have hknext : (k : ℤ)
          = ⌈(sc - 10 * L / 57 - 1/10^6) * (6 * DISCHARGE_EFF) / L⌉ := by
        rw [harg, Int.ceil_sub_one]
        push_cast at hk
        omega
      have hT' : (t + SIM_STEP) + SIM_STEP * k ≤ Tend := by linarith
      rw [LoopSpec.run_inr _
        (drain_next_iter Tend cap L S0 start sc t (le_of_lt hL) hcap
          (not_le.mpr hlast) ht)]
      rw [ih (sc - 10 * L / 57) (t + SIM_STEP) hcap' hlast hknext hT']
      push_cast
      have e1 : sc - 10 * L / 57 - 10 * L / 57 * (k:ℚ)
          = sc - 10 * L / 57 * ((k:ℚ) + 1) := by ring
      have e2 : t + SIM_STEP + SIM_STEP * (k:ℚ) = t + SIM_STEP * ((k:ℚ) + 1) := by
        ring
      rw [e1, e2]

/-- **C4.** Under zero generation with load `L > 0`, discharge efficiency
`η = DISCHARGE_EFF` and initial SOC `S0` above the simulator's `1e-6` kWh
depletion threshold (forecast long enough to cover depletion),
`simulate_runtime` reports `depleted = true` with a runtime of exactly
`k = ⌈(S0 - 1e-6)·(6·η)/L⌉` whole 10-minute simulation steps — the ideal
depletion time `S0/(L/η)` hours rounded up to the step grid (after the
threshold deduction).  The runtime is therefore approximately the ideal
value at the simulator's resolution: at most one `SIM_STEP` above it, and
below it by at most the threshold slack `(η/L)·10^{-6}` hours.  In the
spec's example (SOC 5 kWh, load 2 kW) this yields 150 minutes for the ideal
`5/(2/0.95) = 2.375 h = 142.5 min`. -/
theorem simulate_runtime_depletion (cap L S0 Tend start : ℚ) (k : ℕ)
    (hL : 0 < L) (hS0 : 1/10^6 < S0) (hcap : S0 ≤ cap)
    (hk : (k : ℤ) = ⌈(S0 - 1/10^6) * (6 * DISCHARGE_EFF) / L⌉)
    (hT : start + SIM_STEP * k ≤ Tend) :
    ((BatterySim.init cap S0).simulate_runtime (zeroForecast Tend) L start).2.depleted
        = true ∧
    ((BatterySim.init cap S0).simulate_runtime (zeroForecast Tend) L start).2.runtime_minutes
        = 10 * k ∧
    S0 * DISCHARGE_EFF / L - DISCHARGE_EFF / (L * 10^6) ≤ 10 * (k:ℚ) / 60 ∧
    10 * (k:ℚ) / 60 < S0 * DISCHARGE_EFF / L + SIM_STEP / 3600 := by
  have hL0 : L ≠ 0 := ne_of_gt hL
  have hinit : BatterySim.init cap S0 = ⟨cap, S0⟩ := by
    unfold BatterySim.init
    rw [min_eq_left hcap, max_eq_right (by linarith)]
  have hrun := drain_loop_run Tend cap L S0 start hL k S0 start hcap hS0 hk hT
  have h1 : (S0 - 1/10^6) * (6 * DISCHARGE_EFF) / L ≤ (k:ℚ) := by
    have hle := Int.le_ceil ((S0 - 1/10^6) * (6 * DISCHARGE_EFF) / L)
    rw [← hk] at hle
    exact_mod_cast hle
  have h2 : ((k:ℚ)) < (S0 - 1/10^6) * (6 * DISCHARGE_EFF) / L + 1 := by
    have hlt := Int.ceil_lt_add_one ((S0 - 1/10^6) * (6 * DISCHARGE_EFF) / L)
    rw [← hk] at hlt
    exact_mod_cast hlt
  refine ⟨?_, ?_, ?_, ?_⟩
  · unfold BatterySim.simulate_runtime
    rw [hinit]
    rw [hrun]
  · unfold BatterySim.simulate_runtime
    rw [hinit]
    rw [hrun]
    show ((start + SIM_STEP * (k:ℚ) - start) / 60).floor = 10 * (k:ℕ)
    have harg : (start + SIM_STEP * (k:ℚ) - start) / 60 = ((10 * (k:ℕ) : ℤ) : ℚ) := by
      push_cast
      norm_num [SIM_STEP]
      ring
    rw [harg]
    show ⌊((10 * (k:ℕ) : ℤ) : ℚ)⌋ = (10 * (k:ℕ) : ℤ)
    exact Int.floor_intCast _
  · have heq : S0 * DISCHARGE_EFF / L - DISCHARGE_EFF / (L * 10^6)
        = (S0 - 1/10^6) * (6 * DISCHARGE_EFF) / L / 6 := by
      norm_num [DISCHARGE_EFF]
      field_simp
      ring
    rw [heq]
    linarith
  · have heq2 : S0 * DISCHARGE_EFF / L + SIM_STEP / 3600
        = (S0 * (6 * DISCHARGE_EFF) / L + 1) / 6 := by
      norm_num [DISCHARGE_EFF, SIM_STEP]
      field_simp
      ring
    have hmono : (S0 - 1/10^6) * (6 * DISCHARGE_EFF) / L ≤ S0 * (6 * DISCHARGE_EFF) / L := by
      have hnum : (S0 - 1/10^6) * (6 * DISCHARGE_EFF) ≤ S0 * (6 * DISCHARGE_EFF) := by
        norm_num [DISCHARGE_EFF]
      exact (div_le_div_iff_of_pos_right hL).mpr hnum
    rw [heq2]
    linarith

theorem simulate_runtime_depletion_witness :
    ((15:ℕ):ℤ) = ⌈((5:ℚ) - 1/10^6) * (6 * DISCHARGE_EFF) / 2⌉ ∧
    (((BatterySim.init 10 5).simulate_runtime (zeroForecast (10^6)) 2 0).2.depleted
        = true ∧
      ((BatterySim.init 10 5).simulate_runtime (zeroForecast (10^6)) 2 0).2.runtime_minutes
        = 10 * (15:ℕ) ∧
      (5:ℚ) * DISCHARGE_EFF / 2 - DISCHARGE_EFF / (2 * 10^6) ≤ 10 * ((15:ℕ):ℚ) / 60 ∧
      10 * ((15:ℕ):ℚ) / 60 < 5 * DISCHARGE_EFF / 2 + SIM_STEP / 3600) :=
  ⟨by
     have h15 : ⌈((5:ℚ) - 1/10^6) * (6 * DISCHARGE_EFF) / 2⌉ = 15 := by
       rw [Int.ceil_eq_iff]
       norm_num [DISCHARGE_EFF]
     rw [h15]
     norm_num,
   simulate_runtime_depletion 10 2 5 (10^6) 0 15 (by norm_num) (by norm_num)
     (by norm_num)
     (by
     have h15 : ⌈((5:ℚ) - 1/10^6) * (6 * DISCHARGE_EFF) / 2⌉ = 15 := by
       rw [Int.ceil_eq_iff]
       norm_num [DISCHARGE_EFF]
     rw [h15]
     norm_num)
     (by norm_num [SIM_STEP])⟩

/-! ### `simulate_until_targets` (nested, by mis-indentation, inside
`BatterySim.step` in the source; its body is modelled as written). -/

/-- One entry of the returned mapping: `{'eta': datetime | None, 'reachable': bool}`. -/
structure TargetInfo where
  eta : Option ℚ
  reachable : Bool
  deriving DecidableEq

/-- Python's banker's rounding `round(x)` of a scalar to an integer:
nearest integer, ties to the even one. -/
def roundHalfEven (x : ℚ) : ℤ :=
  if x - ⌊x⌋ < 1/2 then ⌊x⌋
  else if 1/2 < x - ⌊x⌋ then ⌊x⌋ + 1
  else if ⌊x⌋ % 2 = 0 then ⌊x⌋ else ⌊x⌋ + 1

/-- Python `round(x, 6)`. -/
def round6 (x : ℚ) : ℚ := (roundHalfEven (x * 10^6) : ℚ) / 10^6

/-- `reached[tr] = v` on a dict modelled as a partial map. -/
def mapUpdate (m : ℚ → Option TargetInfo) (key : ℚ) (v : TargetInfo) :
    ℚ → Option TargetInfo :=
  fun k => if k = key then some v else m k

/-- `reached.setdefault(tr, v)`. -/
def mapSetdefault (m : ℚ → Option TargetInfo) (key : ℚ) (v : TargetInfo) :
    ℚ → Option TargetInfo :=
  fun k =>
    if k = key then
      match m key with
      | some w => some w
      | none => some v
    else m k

/-- `remaining = sorted(set(round(t, 6) for t in targets_kwh if t > self.soc))`. -/
def remaining0 (targets_kwh : List ℚ) (soc : ℚ) : List ℚ :=
  ((((targets_kwh.filter (fun t => decide (soc < t))).map round6).dedup).mergeSort
    (fun a b => decide (a ≤ b)))

/-- Loop state of `simulate_until_targets`. -/
structure UntilSt where
  b : BatterySim
  i : ℕ
  t : ℚ
  remaining : List ℚ
  reached : ℚ → Option TargetInfo

/-- One iteration of the `while remaining:` loop of `simulate_until_targets`:
advance the cursor, `step`, advance time, stamp every remaining target with
`soc >= tr - 1e-9` at the new simulated time, drop them from `remaining`;
if the forecast is exhausted and targets remain, mark them unreachable and
break; if no target remains, the `while` guard ends the loop. -/
def untilNext (forecast : List Row) (base_load_kw : ℚ) (s : UntilSt) :
    (BatterySim × (ℚ → Option TargetInfo)) ⊕ UntilSt :=
  if s.remaining = [] then .inl (s.b, s.reached)
  else
    let i' := advanceIdx forecast s.t s.i
    let gen := genAt forecast i'
    let b' := s.b.step gen base_load_kw SIM_STEP
    let t' := s.t + SIM_STEP
    let newly := s.remaining.filter (fun tr => decide (tr - 1/10^9 ≤ b'.soc))
    let reached' := newly.foldl (fun m tr => mapUpdate m tr ⟨some t', true⟩) s.reached
    let remaining' := s.remaining.filter (fun tr => decide (tr ∉ newly))
    if forecast.length - 1 ≤ i' ∧ remaining' ≠ [] then
      .inl (b', remaining'.foldl (fun m tr => mapUpdate m tr ⟨none, false⟩) reached')
    else if remaining' = [] then
      .inl (b', reached')
    else
      .inr ⟨b', i', t', remaining', reached'⟩

/-- The simulation-time measure on `UntilSt`. -/
def untilMeasure (forecast : List Row) (s : UntilSt) : ℕ :=
  (⌈(tsBound forecast - s.t) / SIM_STEP⌉).toNat

lemma untilNext_inr {forecast : List Row} {base_load_kw : ℚ} {s s' : UntilSt}
    (h : untilNext forecast base_load_kw s = .inr s') :
    s'.t = s.t + SIM_STEP ∧ advanceIdx forecast s.t s.i + 1 < forecast.length := by
  simp only [untilNext] at h
  split_ifs at h with h1 h2 h3
  all_goals cases h
  all_goals push_neg at h2
  all_goals refine ⟨rfl, ?_⟩
  all_goals by_contra hc
  all_goals exact h3 (h2 (by omega))


lemma untilNext_dec (forecast : List Row) (base_load_kw : ℚ) :
    ∀ s s', untilNext forecast base_load_kw s = .inr s' →
      untilMeasure forecast s' < untilMeasure forecast s := by
  intro s s' h
  obtain ⟨ht, hi⟩ := untilNext_inr h
  have hts := advanceIdx_stop forecast s.t s.i hi
  have hb : (forecast.getD (advanceIdx forecast s.t s.i + 1) ⟨0, 0⟩).ts ≤ tsBound forecast :=
    le_tsBound (getD_mem hi ⟨0, 0⟩)
  unfold untilMeasure
  rw [ht]
  exact simMeasure_decreases (lt_of_lt_of_le hts hb)

/-- The `while remaining:` loop of `simulate_until_targets` as a `LoopSpec`. -/
def untilLoop (forecast : List Row) (base_load_kw : ℚ) :
    LoopSpec UntilSt (BatterySim × (ℚ → Option TargetInfo)) :=
  ⟨untilNext forecast base_load_kw, untilMeasure forecast,
   untilNext_dec forecast base_load_kw⟩

/-- `simulate_until_targets(forecast, targets_kwh, base_load_kw, start)`:
targets at or below the current SOC are marked `{'eta': start, 'reachable':
True}` up front; rounded targets above the SOC form `remaining`; the loop
runs; finally `reached.setdefault(tr, {'eta': None, 'reachable': soc >= tr -
1e-9})` fills any still-unset target.  The returned pair is (mutated `self`,
result mapping). -/
def BatterySim.simulate_until_targets (b : BatterySim) (forecast : List Row)
    (targets_kwh : List ℚ) (base_load_kw start : ℚ) :
    BatterySim × (ℚ → Option TargetInfo) :=
  let reached : ℚ → Option TargetInfo := fun k =>
    if k ∈ targets_kwh ∧ k ≤ b.soc then some ⟨some start, true⟩ else none
  let res := (untilLoop forecast base_load_kw).run
    ⟨b, 0, start, remaining0 targets_kwh b.soc, reached⟩
  (res.1, targets_kwh.foldl (fun m tr =>
    mapSetdefault m tr ⟨none, decide (tr - 1/10^9 ≤ res.1.soc)⟩) res.2)

lemma foldl_mapUpdate_notMem {l : List ℚ} {tr : ℚ} (h : tr ∉ l)
    (m : ℚ → Option TargetInfo) (v : TargetInfo) :
    (l.foldl (fun m k => mapUpdate m k v) m) tr = m tr := by
  induction l generalizing m with
  | nil => rfl
  | cons x xs ih =>
    rw [List.mem_cons] at h
    push_neg at h
    simp only [List.foldl_cons]
    rw [ih h.2]
    simp [mapUpdate, h.1]

lemma foldl_mapSetdefault_some {l : List ℚ} {tr : ℚ} {v : TargetInfo}
    (f : ℚ → TargetInfo) (m : ℚ → Option TargetInfo) (h : m tr = some v) :
    (l.foldl (fun m k => mapSetdefault m k (f k)) m) tr = some v := by
  induction l generalizing m with
  | nil => exact h
  | cons x xs ih =>
    simp only [List.foldl_cons]
    apply ih
    unfold mapSetdefault
    by_cases hx : tr = x
    · subst hx
      rw [if_pos rfl, h]
    · rw [if_neg hx]
      exact h

lemma notMem_filter {l : List ℚ} {tr : ℚ} (h : tr ∉ l) (p : ℚ → Bool) :
    tr ∉ l.filter p := fun hc => h (List.mem_filter.mp hc).1

/-- The loop of `simulate_until_targets` never touches the entry of a key
that is not in `remaining`. -/
lemma untilLoop_preserves (forecast : List Row) (base_load_kw : ℚ) (tr : ℚ)
    (v : TargetInfo) :
    ∀ s, (s.reached tr = some v ∧ tr ∉ s.remaining) →
      (((untilLoop forecast base_load_kw).run s).2 tr = some v) := by
  refine LoopSpec.run_invariant (untilLoop forecast base_load_kw)
    (fun s => s.reached tr = some v ∧ tr ∉ s.remaining)
    (fun r => r.2 tr = some v) ?_ ?_
  · intro s r hI hnext
    obtain ⟨hv, hmem⟩ := hI
    simp only [untilLoop, untilNext] at hnext
    split_ifs at hnext with h1 h2 h3
    all_goals cases hnext
    all_goals dsimp only
    all_goals first
      | exact hv
      | (rw [foldl_mapUpdate_notMem (notMem_filter hmem _) _ _,
             foldl_mapUpdate_notMem (notMem_filter hmem _) _ _]
         exact hv)
      | (rw [foldl_mapUpdate_notMem (notMem_filter hmem _) _ _]
         exact hv)
  · intro s s' hI hnext
    obtain ⟨hv, hmem⟩ := hI
    simp only [untilLoop, untilNext] at hnext
    split_ifs at hnext with h1 h2 h3
    all_goals cases hnext
    refine ⟨?_, notMem_filter hmem _⟩
    dsimp only
    rw [foldl_mapUpdate_notMem (notMem_filter hmem _) _ _]
    exact hv

/-! ## Window search engine (`api/main.py`, `_find_windows`) -/

/-- The energy prefix sums of `_find_windows`:
`pref = [0.0]; for v in p_kw: pref.append(pref[-1] + v * step_h)`,
read as a function of the index. -/
def pref (p : List ℚ) (step_h : ℚ) : ℕ → ℚ
  | 0 => 0
  | m + 1 => pref p step_h m + p.getD m 0 * step_h

/-- `min(p_kw[i:j])` (0 for an empty slice, which never occurs in use). -/
def sliceMin (p : List ℚ) (i j : ℕ) : ℚ :=
  match (p.drop i).take (j - i) with
  | [] => 0
  | x :: xs => xs.foldl min x

/-- Body of the binary search of `_find_windows`
(`while lo <= hi: mid = (lo+hi)//2; ...`), structurally recursive on `fuel`.
Each iteration shrinks `hi + 1 - lo` by at least one, so the fuel
`(hi + 1 - lo).toNat` supplied by `bsearchWin` never truncates the loop, and
at fuel 0 the `lo ≤ hi` guard is false anyway. -/
def bsearchGo (p : List ℚ) (step_h need_kwh : ℚ) (i : ℕ) :
    ℕ → ℤ → ℤ → Option ℤ → Option ℤ
  | 0, _, _, j => j
  | fuel + 1, lo, hi, j =>
    if lo ≤ hi then
      let mid := (lo + hi) / 2
      let e := pref p step_h mid.toNat - pref p step_h i
      if need_kwh ≤ e + 1/10^12 then
        bsearchGo p step_h need_kwh i fuel lo (mid - 1) (some mid)
      else
        bsearchGo p step_h need_kwh i fuel (mid + 1) hi j
    else j

/-- The binary search of `_find_windows` for start index `i`:
`lo, hi, j = i+1, n, None`. -/
def bsearchWin (p : List ℚ) (step_h need_kwh : ℚ) (i n : ℕ) : Option ℤ :=
  bsearchGo p step_h need_kwh i ((n : ℤ) + 1 - ((i : ℤ) + 1)).toNat
    ((i : ℤ) + 1) (n : ℤ) none

/-- One result row of `_find_windows`
(`{'start','end','kwh','avg_kw','min_kw','steps'}`), with the index pair
`(i, j)` of the window recorded alongside (`start = ts[i]`,
`end = ts[j-1] + step`). -/
structure FoundWindow where
  i : ℕ
  j : ℕ
  start : ℚ
  end_ : ℚ
  kwh : ℚ
  avg_kw : ℚ
  min_kw : ℚ
  steps : ℕ
  deriving DecidableEq

/-- The `for i in range(n)` loop of `_find_windows`, structurally recursive
on the number `fuel = n - i` of start indices left (exact, so the loop is
never truncated). -/
def fwLoop (ts p : List ℚ) (step_minutes : ℕ) (need_kwh : ℚ)
    (min_power_kw : Option ℚ) (max_windows : ℕ) :
    ℕ → ℕ → List FoundWindow → List FoundWindow
  | 0, _, out => out
  | fuel + 1, i, out =>
    if i < ts.length then
      let step_h := (step_minutes : ℚ) / 60
      match bsearchWin p step_h need_kwh i ts.length with
      | none => fwLoop ts p step_minutes need_kwh min_power_kw max_windows fuel (i + 1) out
      | some jz =>
        let j := jz.toNat
        let reject :=
          match min_power_kw with
          | some f => decide (sliceMin p i j + 1/10^12 < f)
          | none => false
        if reject then
          fwLoop ts p step_minutes need_kwh min_power_kw max_windows fuel (i + 1) out
        else
          let e := pref p step_h j - pref p step_h i
          let w : FoundWindow :=
            ⟨i, j, ts.getD i 0, ts.getD (j - 1) 0 + 60 * step_minutes, e,
             e / ((j - i : ℕ) * step_h), sliceMin p i j, j - i⟩
          let out' := out ++ [w]
          if max_windows ≤ out'.length then out'
          else fwLoop ts p step_minutes need_kwh min_power_kw max_windows fuel (i + 1) out'
    else out

/-- `_find_windows(ts, p_kw, step_minutes, need_kwh, min_power_kw,
max_windows)`. -/
def find_windows (ts p : List ℚ) (step_minutes : ℕ) (need_kwh : ℚ)
    (min_power_kw : Option ℚ) (max_windows : ℕ) : List FoundWindow :=
  if ts = [] then []
  else fwLoop ts p step_minutes need_kwh min_power_kw max_windows ts.length 0 []

lemma pref_le_succ {p : List ℚ} {step_h : ℚ} (hp : ∀ v ∈ p, 0 ≤ v)
    (hh : 0 ≤ step_h) (m : ℕ) : pref p step_h m ≤ pref p step_h (m + 1) := by
  have hd : 0 ≤ p.getD m 0 := by
    by_cases hm : m < p.length
    · exact hp _ (getD_mem hm 0)
    · rw [List.getD_eq_default _ _ (by omega)]
  have : 0 ≤ p.getD m 0 * step_h := mul_nonneg hd hh
  show pref p step_h m ≤ pref p step_h m + p.getD m 0 * step_h
  linarith

lemma pref_mono {p : List ℚ} {step_h : ℚ} (hp : ∀ v ∈ p, 0 ≤ v)
    (hh : 0 ≤ step_h) : Monotone (pref p step_h) :=
  monotone_nat_of_le_succ (pref_le_succ hp hh)

/-- Loop-invariant correctness of the binary search of `_find_windows`: under
non-negative power (monotone prefix sums), it returns the least index in
`[i+1, n]` whose window energy reaches `need_kwh - 1e-12`, or `none` when no
index in range does. -/
lemma bsearchGo_spec (p : List ℚ) (step_h need_kwh : ℚ) (i n : ℕ)
    (hp : ∀ v ∈ p, 0 ≤ v) (hh : 0 ≤ step_h) :
    ∀ (fuel : ℕ) (lo hi : ℤ) (j : Option ℤ),
      (hi + 1 - lo).toNat ≤ fuel →
      (i : ℤ) + 1 ≤ lo →
      hi ≤ (n : ℤ) →
      (∀ m : ℤ, (i : ℤ) + 1 ≤ m → m < lo →
        ¬ need_kwh ≤ pref p step_h m.toNat - pref p step_h i + 1/10^12) →
      (∀ j0, j = some j0 →
        (need_kwh ≤ pref p step_h j0.toNat - pref p step_h i + 1/10^12) ∧
        j0 = hi + 1 ∧ (i : ℤ) + 1 ≤ j0 ∧ j0 ≤ (n : ℤ)) →
      (j = none → hi = (n : ℤ)) →
      ((∀ j0, bsearchGo p step_h need_kwh i fuel lo hi j = some j0 →
          (need_kwh ≤ pref p step_h j0.toNat - pref p step_h i + 1/10^12) ∧
          (i : ℤ) + 1 ≤ j0 ∧ j0 ≤ (n : ℤ) ∧
          (∀ m : ℤ, (i : ℤ) + 1 ≤ m → m < j0 →
            ¬ need_kwh ≤ pref p step_h m.toNat - pref p step_h i + 1/10^12)) ∧
       (bsearchGo p step_h need_kwh i fuel lo hi j = none →
          ∀ m : ℤ, (i : ℤ) + 1 ≤ m → m ≤ (n : ℤ) →
            ¬ need_kwh ≤ pref p step_h m.toNat - pref p step_h i + 1/10^12)) := by
  intro fuel
  induction fuel with
  | zero =>
    intro lo hi j hfuel hlo hhi hI1 hI2 hI3
    have hlt : hi < lo := by omega
    constructor
    · intro j0 hj0
      simp only [bsearchGo] at hj0
      obtain ⟨hP, heq, hb1, hb2⟩ := hI2 j0 hj0
      exact ⟨hP, hb1, hb2, fun m hm1 hm2 => hI1 m hm1 (by omega)⟩
    · intro hnone m hm1 hm2
      simp only [bsearchGo] at hnone
      have := hI3 hnone
      exact hI1 m hm1 (by omega)
  | succ fuel ih =>
    intro lo hi j hfuel hlo hhi hI1 hI2 hI3
    simp only [bsearchGo]
    split_ifs with h1 h2
    · -- lo ≤ hi, predicate holds at mid: go left, record mid
      refine ih lo ((lo + hi) / 2 - 1) (some ((lo + hi) / 2)) ?_ hlo ?_ hI1 ?_ ?_
      · omega
      · omega
      · intro j0 hj0
        cases hj0
        exact ⟨h2, by omega, by omega, by omega⟩
      · intro hc
        cases hc
    · -- lo ≤ hi, predicate fails at mid: go right
      refine ih ((lo + hi) / 2 + 1) hi j ?_ ?_ hhi ?_ hI2 hI3
      · omega
      · omega
      · intro m hm1 hm2
        by_cases hmlo : m < lo
        · exact hI1 m hm1 hmlo
        · push_neg at hmlo
          intro hPm
          apply h2
          have hmono := pref_mono hp hh
            (Int.toNat_le_toNat (by omega : m ≤ (lo + hi) / 2))
          linarith
    · -- lo > hi: the loop exits with the recorded j
      constructor
      · intro j0 hj0
        obtain ⟨hP, heq, hb1, hb2⟩ := hI2 j0 hj0
        exact ⟨hP, hb1, hb2, fun m hm1 hm2 => hI1 m hm1 (by omega)⟩
      · intro hnone m hm1 hm2
        have := hI3 hnone
        exact hI1 m hm1 (by omega)

/-- Entry-point form of `bsearchGo_spec` for `_find_windows`'s call
`lo, hi, j = i+1, n, None`. -/
lemma bsearchWin_spec (p : List ℚ) (step_h need_kwh : ℚ) (i n : ℕ)
    (hp : ∀ v ∈ p, 0 ≤ v) (hh : 0 ≤ step_h) :
    (∀ j0, bsearchWin p step_h need_kwh i n = some j0 →
        (need_kwh ≤ pref p step_h j0.toNat - pref p step_h i + 1/10^12) ∧
        (i : ℤ) + 1 ≤ j0 ∧ j0 ≤ (n : ℤ) ∧
        (∀ m : ℤ, (i : ℤ) + 1 ≤ m → m < j0 →
          ¬ need_kwh ≤ pref p step_h m.toNat - pref p step_h i + 1/10^12)) ∧
    (bsearchWin p step_h need_kwh i n = none →
        ∀ m : ℤ, (i : ℤ) + 1 ≤ m → m ≤ (n : ℤ) →
          ¬ need_kwh ≤ pref p step_h m.toNat - pref p step_h i + 1/10^12) := by
  unfold bsearchWin
  refine bsearchGo_spec p step_h need_kwh i n hp hh _ _ _ none le_rfl le_rfl le_rfl
    ?_ ?_ ?_
  · intro m hm1 hm2 hP
    omega
  · intro j0 hj0
    cases hj0
  · intro _
    rfl

/-- Every window in the output of the `for i in range(n)` loop of
`_find_windows` either was already in the accumulator or records a start
index whose binary search succeeded and whose power-floor check passed, with
all fields computed as in the source. -/
lemma fwLoop_mem (ts p : List ℚ) (sm : ℕ) (need : ℚ) (mp : Option ℚ) (mw : ℕ) :
    ∀ (fuel i : ℕ) (out : List FoundWindow),
      ∀ w ∈ fwLoop ts p sm need mp mw fuel i out,
      w ∈ out ∨
      (∃ jz : ℤ, bsearchWin p ((sm : ℚ)/60) need w.i ts.length = some jz ∧
        w.j = jz.toNat ∧
        w.start = ts.getD w.i 0 ∧ w.end_ = ts.getD (w.j - 1) 0 + 60 * sm ∧
        w.kwh = pref p ((sm:ℚ)/60) w.j - pref p ((sm:ℚ)/60) w.i ∧
        w.min_kw = sliceMin p w.i w.j ∧ w.steps = w.j - w.i ∧
        (∀ f, mp = some f → ¬ (sliceMin p w.i w.j + 1/10^12 < f))) := by
  intro fuel
  induction fuel with
  | zero =>
    intro i out w hw
    simp only [fwLoop] at hw
    exact Or.inl hw
  | succ fuel ih =>
    intro i out w hw
    simp only [fwLoop] at hw
    by_cases hi : i < ts.length
    · rw [if_pos hi] at hw
      cases hbs : bsearchWin p ((sm : ℚ)/60) need i ts.length with
      | none =>
        rw [hbs] at hw
        exact ih (i + 1) out w hw
      | some jz =>
        rw [hbs] at hw
        dsimp only at hw
        split_ifs at hw with hrej hfull
        · exact ih (i + 1) out w hw
        · have hfloor : ∀ f, mp = some f →
              ¬ (sliceMin p i jz.toNat + 1/10^12 < f) := by
            intro f hf
            rw [hf] at hrej
            simpa using hrej
          rcases List.mem_append.mp hw with h | h
          · exact Or.inl h
          · rw [List.mem_singleton] at h
            subst h
            exact Or.inr ⟨jz, hbs, rfl, rfl, rfl, rfl, rfl, rfl, hfloor⟩
        · have hfloor : ∀ f, mp = some f →
              ¬ (sliceMin p i jz.toNat + 1/10^12 < f) := by
            intro f hf
            rw [hf] at hrej
            simpa using hrej
          rcases ih (i + 1) _ w hw with h | h
          · rcases List.mem_append.mp h with h' | h'
            · exact Or.inl h'
            · rw [List.mem_singleton] at h'
              subst h'
              exact Or.inr ⟨jz, hbs, rfl, rfl, rfl, rfl, rfl, rfl, hfloor⟩
          · exact Or.inr h
    · rw [if_neg hi] at hw
      exact Or.inl hw

lemma foldl_min_le_init (l : List ℚ) (a : ℚ) : l.foldl min a ≤ a := by
  induction l generalizing a with
  | nil => exact le_refl a
  | cons x xs ih => exact le_trans (ih (min a x)) (min_le_left a x)

lemma foldl_min_le_mem {l : List ℚ} {x : ℚ} (hx : x ∈ l) (a : ℚ) :
    l.foldl min a ≤ x := by
  induction l generalizing a with
  | nil => cases hx
  | cons y ys ih =>
    rw [List.mem_cons] at hx
    rcases hx with rfl | h
    · exact le_trans (foldl_min_le_init ys (min a x)) (min_le_right a x)
    · exact ih h (min a y)

/-- `min(p_kw[i:j])` bounds every sample of the slice from below. -/
lemma sliceMin_le {p : List ℚ} {i j m : ℕ} (h1 : i ≤ m) (h2 : m < j)
    (h3 : m < p.length) : sliceMin p i j ≤ p.getD m 0 := by
  have hb : m - i < ((p.drop i).take (j - i)).length := by
    simp only [List.length_take, List.length_drop]
    omega
  have hval : ((p.drop i).take (j - i))[m - i] = p.getD m 0 := by
    rw [List.getElem_take, List.getElem_drop, List.getD_eq_getElem p 0 h3]
    congr 1
    omega
  have hmem : p.getD m 0 ∈ (p.drop i).take (j - i) := hval ▸ List.getElem_mem hb
  unfold sliceMin
  cases hsl : (p.drop i).take (j - i) with
  | nil =>
    rw [hsl] at hmem
    cases hmem
  | cons x xs =>
    rw [hsl] at hmem
    rcases List.mem_cons.mp hmem with heq | h
    · rw [← heq] at *
      exact foldl_min_le_init xs _
    · exact foldl_min_le_mem h x

/-- **C1.** Every window `(i, j)` returned by `_find_windows` on a
non-negative power series has `j` equal to the smallest index above `i` whose
prefix-sum energy `pref[j] - pref[i]` reaches `need_kwh - 1e-12`; start
indices for which no such `j` exists within the series produce no window. -/
theorem find_windows_end_minimal (ts p : List ℚ) (step_minutes : ℕ)
    (need_kwh : ℚ) (min_power_kw : Option ℚ) (max_windows : ℕ)
    (hp : ∀ v ∈ p, 0 ≤ v) :
    (∀ w ∈ find_windows ts p step_minutes need_kwh min_power_kw max_windows,
      w.i < w.j ∧ w.j ≤ ts.length ∧
      need_kwh - 1/10^12 ≤
        pref p ((step_minutes : ℚ)/60) w.j - pref p ((step_minutes : ℚ)/60) w.i ∧
      (∀ m : ℕ, w.i < m → m < w.j →
        pref p ((step_minutes : ℚ)/60) m - pref p ((step_minutes : ℚ)/60) w.i <
          need_kwh - 1/10^12)) ∧
    (∀ i : ℕ,
      (∀ m : ℕ, i < m → m ≤ ts.length →
        pref p ((step_minutes : ℚ)/60) m - pref p ((step_minutes : ℚ)/60) i <
          need_kwh - 1/10^12) →
      ∀ w ∈ find_windows ts p step_minutes need_kwh min_power_kw max_windows,
        w.i ≠ i) := by
  have hh : (0:ℚ) ≤ (step_minutes : ℚ)/60 := by positivity
  have hA : ∀ w ∈ find_windows ts p step_minutes need_kwh min_power_kw max_windows,
      w.i < w.j ∧ w.j ≤ ts.length ∧
      need_kwh - 1/10^12 ≤
        pref p ((step_minutes : ℚ)/60) w.j - pref p ((step_minutes : ℚ)/60) w.i ∧
      (∀ m : ℕ, w.i < m → m < w.j →
        pref p ((step_minutes : ℚ)/60) m - pref p ((step_minutes : ℚ)/60) w.i <
          need_kwh - 1/10^12) := by
    intro w hw
    unfold find_windows at hw
    split_ifs at hw with hts
    · cases hw
    · rcases fwLoop_mem ts p step_minutes need_kwh min_power_kw max_windows
        ts.length 0 [] w hw with h | ⟨jz, hbs, hj, _⟩
      · cases h
      · obtain ⟨hP, hb1, hb2, hmin⟩ :=
          (bsearchWin_spec p ((step_minutes : ℚ)/60) need_kwh w.i ts.length hp hh).1
            jz hbs
        have hjz : (w.j : ℤ) = jz := by omega
        refine ⟨by omega, by omega, ?_, ?_⟩
        · have : jz.toNat = w.j := by omega
          rw [this] at hP
          linarith
        · intro m hm1 hm2
          have hres := hmin (m : ℤ) (by omega) (by omega)
          rw [show ((m : ℤ)).toNat = m by omega] at hres
          push_neg at hres
          linarith
  refine ⟨hA, ?_⟩
  intro i hno w hw heq
  obtain ⟨hij, hjn, hE, _⟩ := hA w hw
  rw [heq] at hij hE
  exact absurd hE (not_le.mpr (hno w.j hij hjn))

/-- Witness evaluation for the C1 theorem: a single-sample series. -/
lemma find_windows_eval_c1 :
    find_windows [0] [4] 60 2 none 10 = [⟨0, 1, 0, 3600, 4, 4, 4, 1⟩] := by
  norm_num [find_windows, fwLoop, bsearchWin, bsearchGo, pref, sliceMin,
    List.getD]

/-- Witness for `find_windows_end_minimal` at a concrete input: constant 4 kW
for one 60-minute step meets `need_kwh = 2` at the first window end. -/
theorem find_windows_end_minimal_witness :
    (2 : ℚ) - 1/10^12 ≤
      pref [4] (((60:ℕ) : ℚ)/60) 1 - pref [4] (((60:ℕ) : ℚ)/60) 0 := by
  have hw : (⟨0, 1, 0, 3600, 4, 4, 4, 1⟩ : FoundWindow) ∈
      find_windows [0] [4] 60 2 none 10 := by
    rw [find_windows_eval_c1]
    exact List.mem_singleton.mpr rfl
  exact ((find_windows_end_minimal [0] [4] 60 2 none 10
    (by intro v hv; rw [List.mem_singleton] at hv; rw [hv]; norm_num)).1
    _ hw).2.2.1

/-- **C6, counterexample.** With floor `F = 1` and a single sample
`1 - 1e-13 < F`, `_find_windows` still returns the window `[0, 1)` — the
rejection test uses the `1e-12` tolerance (`min(p[i:j]) + 1e-12 < F`), so a
sample strictly below the floor by less than `1e-12` survives. -/
theorem find_windows_floor_counterexample :
    find_windows [0] [1 - 1/10^13] 60 (1/2) (some 1) 10 =
      [⟨0, 1, 0, 3600, 1 - 1/10^13, 1 - 1/10^13, 1 - 1/10^13, 1⟩] ∧
    (1 - 1/10^13 : ℚ) < 1 := by
  constructor
  · norm_num [find_windows, fwLoop, bsearchWin, bsearchGo, pref, sliceMin,
      List.getD]
  · norm_num

/-- **C6, amended.** When a floor `F` is supplied, every sample of a returned
window `(i, j)` is at least `F - 1e-12`: the code rejects a candidate iff
`min(p[i:j]) + 1e-12 < F`, so samples may undercut the floor only within the
`1e-12` tolerance. -/
theorem find_windows_power_floor (ts p : List ℚ) (step_minutes : ℕ)
    (need_kwh F : ℚ) (max_windows : ℕ) :
    ∀ w ∈ find_windows ts p step_minutes need_kwh (some F) max_windows,
      ∀ m : ℕ, w.i ≤ m → m < w.j → m < p.length →
        F - 1/10^12 ≤ p.getD m 0 := by
  intro w hw m hm1 hm2 hm3
  unfold find_windows at hw
  split_ifs at hw with hts
  · cases hw
  · rcases fwLoop_mem ts p step_minutes need_kwh (some F) max_windows
      ts.length 0 [] w hw with h | ⟨jz, _, _, _, _, _, _, _, hfloor⟩
    · cases h
    · have h1 := hfloor F rfl
      push_neg at h1
      have h2 := sliceMin_le hm1 hm2 hm3
      linarith

/-- Witness for `find_windows_power_floor` at a concrete input. -/
theorem find_windows_power_floor_witness :
    (1 : ℚ) - 1/10^12 ≤ List.getD [2] 0 0 := by
  have heval : find_windows [0] [2] 60 1 (some 1) 10 =
      [⟨0, 1, 0, 3600, 2, 2, 2, 1⟩] := by
    norm_num [find_windows, fwLoop, bsearchWin, bsearchGo, pref, sliceMin,
      List.getD]
  have hw : (⟨0, 1, 0, 3600, 2, 2, 2, 1⟩ : FoundWindow) ∈
      find_windows [0] [2] 60 1 (some 1) 10 := by
    rw [heval]
    exact List.mem_singleton.mpr rfl
  exact find_windows_power_floor [0] [2] 60 1 1 10 _ hw 0
    (by norm_num) (by norm_num) (by norm_num)

/-! ## Series utilities (`api/main.py` `_interp_series`,
`api/services/weather.py` `_integrate_energy_kwh`) -/

/-- The gap-filling loop of `_interp_series`
(`t = t0 + step; while t < t1 - timedelta(seconds=1e-6): ...; t += step`),
structurally recursive on `fuel`.  `interpFill` supplies the exact iteration
count `⌈(t1 - 1e-6 - t)/step⌉` as fuel (for positive `step`, each iteration
advances `t` by `step`, so the guard fails exactly when the fuel runs out),
hence the loop is never truncated. -/
def interpFillGo (t0 v0 t1 v1 step : ℚ) : ℕ → ℚ → List (ℚ × ℚ)
  | 0, _ => []
  | fuel + 1, t =>
    if t < t1 - 1/10^6 then
      (t, v0 + (t - t0) / (t1 - t0) * (v1 - v0)) ::
        interpFillGo t0 v0 t1 v1 step fuel (t + step)
    else []

/-- The fill loop of `_interp_series` started at `t`.  For `step ≤ 0` the
Python loop would not terminate; the API guarantees `step_minutes ≥ 1`, and
the model returns `[]` on that degenerate configuration. -/
def interpFill (t0 v0 t1 v1 step t : ℚ) : List (ℚ × ℚ) :=
  if 0 < step then
    interpFillGo t0 v0 t1 v1 step (⌈(t1 - 1/10^6 - t) / step⌉.toNat) t
  else []

/-- `_interp_series(points, key, step_minutes)`: linear interpolation of a
series of `(ts, value)` pairs to fixed spacing.  The `for i in
range(len(points) - 1)` loop is a fold; pairs with `t1 <= t0` are skipped;
`i == 0` emits the first point; the last original point is always appended. -/
def interp_series (points : List (ℚ × ℚ)) (step_minutes : ℕ) :
    List (ℚ × ℚ) :=
  if points = [] then []
  else
    (List.range (points.length - 1)).foldl (fun out i =>
      let t0 := (points.getD i (0, 0)).1
      let v0 := (points.getD i (0, 0)).2
      let t1 := (points.getD (i + 1) (0, 0)).1
      let v1 := (points.getD (i + 1) (0, 0)).2
      if t1 ≤ t0 then out
      else
        out ++ (if i = 0 then [(t0, v0)] else []) ++
          interpFill t0 v0 t1 v1 (60 * step_minutes) (t0 + 60 * step_minutes))
      [] ++ [points.getLastD (0, 0)]

/-- `_integrate_energy_kwh(points, key)`: trapezoidal integration over
(possibly uneven) time deltas; `0.0` for fewer than 2 points.  The Python
loop `for i in range(1, len(points))` over the pairs `(i-1, i)` is indexed
here by `k = i - 1` over `range(len(points) - 1)`. -/
def integrate_energy_kwh (points : List (ℚ × ℚ)) : ℚ :=
  if points.length < 2 then 0
  else
    (List.range (points.length - 1)).foldl (fun total k =>
      let t0 := (points.getD k (0, 0)).1
      let p0 := (points.getD k (0, 0)).2
      let t1 := (points.getD (k + 1) (0, 0)).1
      let p1 := (points.getD (k + 1) (0, 0)).2
      let dh := (t1 - t0) / 3600
      if 0 < dh then total + 1/2 * (p0 + p1) * dh else total) 0

/-- The spec's description of the integral: `0.5*(p0+p1)*Δh` accumulated
pairwise over consecutive samples, skipping zero-or-negative `Δh` segments.
Stated over the consecutive pairs `points.zip points.tail`. -/
def trapezoidSpec (points : List (ℚ × ℚ)) : ℚ :=
  ((points.zip points.tail).map (fun q =>
    if 0 < (q.2.1 - q.1.1) / 3600 then
      1/2 * (q.1.2 + q.2.2) * ((q.2.1 - q.1.1) / 3600)
    else 0)).sum

lemma foldl_add_sum (g : ℕ → ℚ) :
    ∀ (l : List ℕ) (tot : ℚ), l.foldl (fun t k => t + g k) tot =
      tot + (l.map g).sum := by
  intro l
  induction l with
  | nil => intro tot; simp
  | cons x xs ih =>
    intro tot
    simp only [List.foldl_cons, List.map_cons, List.sum_cons]
    rw [ih]
    ring

lemma zip_tail_sum_eq_range (term : (ℚ × ℚ) → (ℚ × ℚ) → ℚ) :
    ∀ points : List (ℚ × ℚ),
      ((points.zip points.tail).map (fun q => term q.1 q.2)).sum =
      ((List.range (points.length - 1)).map (fun k =>
        term (points.getD k (0, 0)) (points.getD (k + 1) (0, 0)))).sum := by
  intro points
  induction points with
  | nil => simp
  | cons x xs ih =>
    cases xs with
    | nil => simp
    | cons y ys =>
      have hlen : (x :: y :: ys : List (ℚ × ℚ)).length - 1 =
          ((y :: ys : List (ℚ × ℚ)).length - 1) + 1 := by
        simp
      rw [hlen, List.range_succ_eq_map]
      simp only [List.tail_cons, List.zip_cons_cons, List.map_cons,
        List.sum_cons, List.map_map]
      simp only [List.tail_cons] at ih
      rw [ih]
      simp only [List.getD_cons_succ, List.getD_cons_zero, List.getD]
      congr 1

/-- `_integrate_energy_kwh` computes exactly the spec's pairwise trapezoidal
sum (both are 0 for fewer than 2 points). -/
lemma integrate_eq_trapezoidSpec (points : List (ℚ × ℚ)) :
    integrate_energy_kwh points = trapezoidSpec points := by
  unfold integrate_energy_kwh trapezoidSpec
  split_ifs with hlen
  · -- fewer than 2 points: the zip with the tail is empty
    match points, hlen with
    | [], _ => simp
    | [x], _ => simp
  · have hfun : (fun (total : ℚ) (k : ℕ) =>
        let t0 := (points.getD k (0, 0)).1
        let p0 := (points.getD k (0, 0)).2
        let t1 := (points.getD (k + 1) (0, 0)).1
        let p1 := (points.getD (k + 1) (0, 0)).2
        let dh := (t1 - t0) / 3600
        if 0 < dh then total + 1/2 * (p0 + p1) * dh else total) =
        (fun (total : ℚ) (k : ℕ) => total +
          (if 0 < ((points.getD (k + 1) (0, 0)).1 - (points.getD k (0, 0)).1) / 3600 then
            1/2 * ((points.getD k (0, 0)).2 + (points.getD (k + 1) (0, 0)).2) *
              (((points.getD (k + 1) (0, 0)).1 - (points.getD k (0, 0)).1) / 3600)
          else 0)) := by
      funext total k
      dsimp only
      split_ifs with h
      · rfl
      · ring
    rw [hfun, foldl_add_sum, zip_tail_sum_eq_range
      (fun a b => if 0 < (b.1 - a.1) / 3600 then 1/2 * (a.2 + b.2) * ((b.1 - a.1) / 3600) else 0)]
    ring

lemma trapezoidSpec_cons (x y : ℚ × ℚ) (l : List (ℚ × ℚ)) :
    trapezoidSpec (x :: y :: l) =
      (if 0 < (y.1 - x.1) / 3600 then 1/2 * (x.2 + y.2) * ((y.1 - x.1) / 3600)
       else 0) + trapezoidSpec (y :: l) := by
  unfold trapezoidSpec
  simp [List.zip_cons_cons]

/-- Telescoping of the trapezoidal sum along an increasing grid sampled from
the linear ramp `x ↦ P·x/T` (times in hours, timestamps in seconds). -/
lemma trapezoidSpec_ramp (P T : ℚ) :
    ∀ (u : List ℚ) (a : ℚ), List.Chain (· < ·) a u →
      trapezoidSpec ((a :: u).map (fun x => (3600 * x, P * x / T))) =
        P / (2 * T) * (((a :: u).getLastD 0)^2 - a^2) := by
  intro u
  induction u with
  | nil =>
    intro a _
    simp [trapezoidSpec]
  | cons b u' ih =>
    intro a hchain
    rw [List.chain_cons] at hchain
    obtain ⟨hab, hchain'⟩ := hchain
    simp only [List.map_cons]
    rw [trapezoidSpec_cons]
    have h36 : ((3600 * b, P * b / T).1 - (3600 * a, P * a / T).1) / 3600 = b - a := by
      dsimp only
      ring
    rw [h36, if_pos (by linarith)]
    have hih := ih b hchain'
    simp only [List.map_cons] at hih
    rw [hih]
    rw [List.getLastD_cons, List.getLastD_cons, List.getLastD_cons]
    dsimp only
    by_cases hT : T = 0
    · subst hT
      simp
    · field_simp
      ring

/-- **C8.** `_integrate_energy_kwh` returns 0 for fewer than 2 points,
otherwise the pairwise trapezoidal sum `0.5*(p0+p1)*Δh` over consecutive
samples skipping non-positive `Δh`; on a linear ramp from 0 to `P` over `T`
hours (sampled at any strictly increasing grid) it equals `P·T/2` exactly. -/
theorem integrate_energy_kwh_props :
    (∀ points : List (ℚ × ℚ), points.length < 2 →
      integrate_energy_kwh points = 0) ∧
    (∀ points : List (ℚ × ℚ),
      integrate_energy_kwh points = trapezoidSpec points) ∧
    (∀ (P T : ℚ) (u : List ℚ), 0 < T → List.Chain (· < ·) 0 u →
      (0 :: u).getLastD 0 = T →
      integrate_energy_kwh ((0 :: u).map (fun x => (3600 * x, P * x / T))) =
        P * T / 2) := by
  refine ⟨?_, integrate_eq_trapezoidSpec, ?_⟩
  · intro points hlen
    unfold integrate_energy_kwh
    rw [if_pos hlen]
  · intro P T u hT hchain hlast
    rw [integrate_eq_trapezoidSpec, trapezoidSpec_ramp P T u 0 hchain, hlast]
    field_simp
    ring

/-- Witness for `integrate_energy_kwh_props`: the ramp from 0 to 2 kW over
1 hour integrates to 1 kWh. -/
theorem integrate_energy_kwh_props_witness :
    integrate_energy_kwh ((0 :: [1]).map (fun x => (3600 * x, 2 * x / 1))) =
      2 * 1 / 2 := by
  refine integrate_energy_kwh_props.2.2 2 1 [1] (by norm_num) ?_ (by simp)
  rw [List.chain_cons]
  exact ⟨by norm_num, List.Chain.nil⟩

lemma foldl_extends {α : Type} (f : List α → ℕ → List α)
    (hf : ∀ out i, ∃ ext, f out i = out ++ ext) :
    ∀ (l : List ℕ) (out : List α), ∃ rest, l.foldl f out = out ++ rest := by
  intro l
  induction l with
  | nil =>
    intro out
    exact ⟨[], (List.append_nil out).symm⟩
  | cons x xs ih =>
    intro out
    obtain ⟨e, he⟩ := hf out x
    obtain ⟨r, hr⟩ := ih (f out x)
    exact ⟨e ++ r, by rw [List.foldl_cons, hr, he, List.append_assoc]⟩

lemma foldl_extends_head {α : Type} (f : List α → ℕ → List α)
    (hf : ∀ out i, ∃ ext, f out i = out ++ ext) (l : List ℕ)
    (start tail0 : List α) (x : α) (hstart : start.head? = some x) :
    ((l.foldl f start) ++ tail0).head? = some x := by
  obtain ⟨rest, hrest⟩ := foldl_extends f hf l start
  rw [hrest, List.append_assoc, List.head?_append, hstart]
  rfl

/-- **C7.** `_interp_series` preserves the first and last original samples
exactly for every non-empty series with strictly increasing timestamps, and
maps empty input to empty output. -/
theorem interp_series_endpoints :
    (∀ step_minutes, interp_series [] step_minutes = []) ∧
    (∀ (points : List (ℚ × ℚ)) (step_minutes : ℕ), points ≠ [] →
      List.Chain' (fun a b => a.1 < b.1) points →
      (interp_series points step_minutes).head? = points.head? ∧
      (interp_series points step_minutes).getLast? = points.getLast?) := by
  constructor
  · intro sm
    unfold interp_series
    rw [if_pos rfl]
  · intro points sm hne hchain
    unfold interp_series
    rw [if_neg hne]
    constructor
    · -- head preservation
      match points, hne, hchain with
      | [q], _, _ =>
        simp
      | q :: r :: rs, _, hchain =>
        have hqr : q.1 < r.1 := (List.chain'_cons.mp hchain).1
        have hlen : (q :: r :: rs : List (ℚ × ℚ)).length - 1 = rs.length + 1 := by
          simp
        rw [hlen, List.range_succ_eq_map, List.foldl_cons]
        refine foldl_extends_head _ ?_ _ _ _ q ?_
        · intro out i
          dsimp only
          split_ifs with h1 h2
          · exact ⟨[], (List.append_nil out).symm⟩
          · exact ⟨_, List.append_assoc _ _ _⟩
          · exact ⟨_, List.append_assoc _ _ _⟩
        · have hnle : ¬ (r.1 ≤ q.1) := not_le.mpr hqr
          simp [hnle]
    · -- last preservation
      rw [List.getLast?_concat]
      have hsome : points.getLast?.isSome := by
        cases points with
        | nil => exact absurd rfl hne
        | cons x xs => simp [List.getLast?_isSome]
      obtain ⟨v, hv⟩ := Option.isSome_iff_exists.mp hsome
      rw [hv, List.getLastD_eq_getLast?, hv]
      rfl

/-- Witness for `interp_series_endpoints` at a concrete two-point series. -/
theorem interp_series_endpoints_witness :
    (interp_series [(0, 5), (1800, 7)] 60).head? = some ((0 : ℚ), (5 : ℚ)) ∧
    (interp_series [(0, 5), (1800, 7)] 60).getLast? = some ((1800 : ℚ), (7 : ℚ)) :=
  (interp_series_endpoints.2 [(0, 5), (1800, 7)] 60 (by simp)
    (by simp [List.chain'_cons]))

/-! ## Availability-run detector (`api/services/schedule.py`,
`green_windows`) -/

/-- A `GreenWindow` (`api/models.py`): `{start, end, avg_margin_kw}`. -/
structure GreenWindow where
  start : ℚ
  end_ : ℚ
  avg_margin_kw : ℚ
  deriving DecidableEq

/-- The scan loop of `green_windows` made explicit: the state is the open run
`(start, acc_margin, count)` (or `none`), the emitted windows accumulate in
order; the caller passes the final timestamp of the whole forecast for the
tail flush executed when the list is exhausted with a run still open.
Interior flushes use the current (negative-margin) row's timestamp; the
duration test is `int((end - start).total_seconds() // 60) >=
min_block_minutes` and the average is `acc_margin / max(count, 1)`. -/
def gwLoop (load_kw : ℚ) (min_block_minutes : ℤ) (lastTs : ℚ) :
    List Row → Option (ℚ × ℚ × ℕ) → List GreenWindow
  | [], none => []
  | [], some (s, acc, c) =>
    if min_block_minutes ≤ ⌊(lastTs - s) / 60⌋ then
      [⟨s, lastTs, acc / ((max c 1 : ℕ) : ℚ)⟩]
    else []
  | r :: rest, none =>
    if 0 ≤ r.wind_kw - load_kw then
      gwLoop load_kw min_block_minutes lastTs rest
        (some (r.ts, r.wind_kw - load_kw, 1))
    else
      gwLoop load_kw min_block_minutes lastTs rest none
  | r :: rest, some (s, acc, c) =>
    if 0 ≤ r.wind_kw - load_kw then
      gwLoop load_kw min_block_minutes lastTs rest
        (some (s, acc + (r.wind_kw - load_kw), c + 1))
    else
      (if min_block_minutes ≤ ⌊(r.ts - s) / 60⌋ then
        [⟨s, r.ts, acc / ((max c 1 : ℕ) : ℚ)⟩]
      else []) ++ gwLoop load_kw min_block_minutes lastTs rest none

/-- `green_windows(forecast, load_kw, min_block_minutes)`
(`api/services/schedule.py`). -/
def green_windows (forecast : List Row) (load_kw : ℚ)
    (min_block_minutes : ℤ) : List GreenWindow :=
  if forecast = [] then []
  else gwLoop load_kw min_block_minutes (forecast.getLastD ⟨0, 0⟩).ts
    forecast none

/-- Spec-side description (§4.3 of the spec): split the series into the
maximal runs of consecutive samples with margin ≥ 0, each paired with the
sample that terminated it (`none` when the run reaches the end of the
series). -/
def runsSplit (load_kw : ℚ) : List Row → List (List Row × Option Row)
  | [] => []
  | x :: xs =>
    if 0 ≤ x.wind_kw - load_kw then
      match h : xs.dropWhile (fun r => decide (0 ≤ r.wind_kw - load_kw)) with
      | [] =>
        [(x :: xs.takeWhile (fun r => decide (0 ≤ r.wind_kw - load_kw)), none)]
      | y :: ys =>
        (x :: xs.takeWhile (fun r => decide (0 ≤ r.wind_kw - load_kw)), some y) ::
          runsSplit load_kw (y :: ys)
    else runsSplit load_kw xs
termination_by l => l.length
decreasing_by
  · have hle := (List.dropWhile_sublist
      (fun r => decide (0 ≤ r.wind_kw - load_kw)) (l := xs)).length_le
    rw [h] at hle
    simp only [List.length_cons] at hle ⊢
    omega
  · simp only [List.length_cons]
    omega

/-- Spec-side emission for one maximal run: end at the terminating sample's
timestamp (or the series' final timestamp), duration in floored whole
minutes at least `min_block_minutes`, average margin = arithmetic mean of
the run's sample margins. -/
def emitRun (load_kw : ℚ) (mbm : ℤ) (lastTs : ℚ)
    (rt : List Row × Option Row) : Option GreenWindow :=
  let s := (rt.1.headD ⟨0, 0⟩).ts
  let e := match rt.2 with
    | some y => y.ts
    | none => lastTs
  if mbm ≤ ⌊(e - s) / 60⌋ then
    some ⟨s, e, (rt.1.map (fun r => r.wind_kw - load_kw)).sum / (rt.1.length : ℚ)⟩
  else none

/-- Spec-side form of the availability-run detector: one window per maximal
margin-≥ 0 run of sufficient duration, empty input giving no windows. -/
def green_windows_spec (forecast : List Row) (load_kw : ℚ) (mbm : ℤ) :
    List GreenWindow :=
  (runsSplit load_kw forecast).filterMap
    (emitRun load_kw mbm (forecast.getLastD ⟨0, 0⟩).ts)

lemma dropWhile_head_false {p : Row → Bool} :
    ∀ {l : List Row} {y : Row} {ys : List Row},
      l.dropWhile p = y :: ys → p y = false := by
  intro l
  induction l with
  | nil =>
    intro y ys h
    cases h
  | cons a l ih =>
    intro y ys h
    rw [List.dropWhile_cons] at h
    split_ifs at h with ha
    · exact ih h
    · cases h
      simpa using ha

lemma ifWindow_congr (C : Prop) [Decidable C] (s T : ℚ) {A1 A2 B1 B2 : ℚ}
    (hA : A1 = A2) (hB : B1 = B2) :
    (if C then [(⟨s, T, A1 / B1⟩ : GreenWindow)] else []) =
    (if C then [(⟨s, T, A2 / B2⟩ : GreenWindow)] else []) := by
  rw [hA, hB]

lemma filterMap_cons_some_eq {α β : Type} (f : α → Option β) (a : α)
    (l : List α) (b : β) (h : f a = some b) :
    List.filterMap f (a :: l) = b :: List.filterMap f l := by
  rw [List.filterMap_cons, h]

lemma filterMap_cons_none_eq {α β : Type} (f : α → Option β) (a : α)
    (l : List α) (h : f a = none) :
    List.filterMap f (a :: l) = List.filterMap f l := by
  rw [List.filterMap_cons, h]

lemma emitRun_none (load_kw : ℚ) (mbm : ℤ) (lastTs : ℚ) (run : List Row) :
    emitRun load_kw mbm lastTs (run, none) =
      if mbm ≤ ⌊(lastTs - (run.headD ⟨0, 0⟩).ts) / 60⌋ then
        some ⟨(run.headD ⟨0, 0⟩).ts, lastTs,
          (run.map (fun r => r.wind_kw - load_kw)).sum / (run.length : ℚ)⟩
      else none := rfl

lemma emitRun_some (load_kw : ℚ) (mbm : ℤ) (lastTs : ℚ) (run : List Row)
    (y : Row) :
    emitRun load_kw mbm lastTs (run, some y) =
      if mbm ≤ ⌊(y.ts - (run.headD ⟨0, 0⟩).ts) / 60⌋ then
        some ⟨(run.headD ⟨0, 0⟩).ts, y.ts,
          (run.map (fun r => r.wind_kw - load_kw)).sum / (run.length : ℚ)⟩
      else none := rfl

lemma runsSplit_neg (load_kw : ℚ) (x : Row) (xs : List Row)
    (hx : ¬ 0 ≤ x.wind_kw - load_kw) :
    runsSplit load_kw (x :: xs) = runsSplit load_kw xs := by
  rw [runsSplit, if_neg hx]

lemma runsSplit_pos_nil (load_kw : ℚ) (x : Row) (xs : List Row)
    (hx : 0 ≤ x.wind_kw - load_kw)
    (hd : xs.dropWhile (fun r => decide (0 ≤ r.wind_kw - load_kw)) = []) :
    runsSplit load_kw (x :: xs) =
      [(x :: xs.takeWhile (fun r => decide (0 ≤ r.wind_kw - load_kw)),
        none)] := by
  rw [runsSplit, if_pos hx]
  split
  · rfl
  · rename_i y ys heq
    rw [hd] at heq
    cases heq

lemma runsSplit_pos_cons (load_kw : ℚ) (x : Row) (xs : List Row) (y : Row)
    (ys : List Row) (hx : 0 ≤ x.wind_kw - load_kw)
    (hd : xs.dropWhile (fun r => decide (0 ≤ r.wind_kw - load_kw)) = y :: ys) :
    runsSplit load_kw (x :: xs) =
      (x :: xs.takeWhile (fun r => decide (0 ≤ r.wind_kw - load_kw)), some y) ::
        runsSplit load_kw (y :: ys) := by
  rw [runsSplit, if_pos hx]
  split
  · rename_i heq
    rw [hd] at heq
    cases heq
  · rename_i y2 ys2 heq
    rw [hd] at heq
    injection heq with h1 h2
    subst h1
    subst h2
    rfl

/-- Running `gwLoop` with an open run over a tail whose samples all keep the
margin non-negative accumulates all of their margins and flushes the run at
`lastTs` when the list ends. -/
lemma gwLoop_open_nil (load_kw : ℚ) (mbm : ℤ) (lastTs : ℚ) :
    ∀ (xs : List Row) (s acc : ℚ) (c : ℕ),
      xs.dropWhile (fun r => decide (0 ≤ r.wind_kw - load_kw)) = [] →
      gwLoop load_kw mbm lastTs xs (some (s, acc, c)) =
        if mbm ≤ ⌊(lastTs - s) / 60⌋ then
          [⟨s, lastTs,
            (acc + (xs.map (fun r => r.wind_kw - load_kw)).sum) /
            ((max (c + xs.length) 1 : ℕ) : ℚ)⟩]
        else [] := by
  intro xs
  induction xs with
  | nil =>
    intro s acc c _
    simp [gwLoop]
  | cons x xs ih =>
    intro s acc c hd
    rw [List.dropWhile_cons] at hd
    split_ifs at hd with hpx
    · have hx : 0 ≤ x.wind_kw - load_kw := by simpa using hpx
      simp only [gwLoop]
      rw [if_pos hx, ih s (acc + (x.wind_kw - load_kw)) (c + 1) hd]
      refine ifWindow_congr _ _ _ ?_ ?_
      · simp only [List.map_cons, List.sum_cons]
        ring
      · congr 1
        simp only [List.length_cons]
        omega

/-- Running `gwLoop` with an open run first consumes the maximal
non-negative-margin block, then flushes at the first negative-margin sample
and restarts with no open run. -/
lemma gwLoop_open_cons (load_kw : ℚ) (mbm : ℤ) (lastTs : ℚ) (y : Row)
    (ys : List Row) :
    ∀ (xs : List Row) (s acc : ℚ) (c : ℕ),
      xs.dropWhile (fun r => decide (0 ≤ r.wind_kw - load_kw)) = y :: ys →
      gwLoop load_kw mbm lastTs xs (some (s, acc, c)) =
        (if mbm ≤ ⌊(y.ts - s) / 60⌋ then
          [⟨s, y.ts,
            (acc + ((xs.takeWhile (fun r => decide (0 ≤ r.wind_kw - load_kw))).map
              (fun r => r.wind_kw - load_kw)).sum) /
            ((max (c + (xs.takeWhile
              (fun r => decide (0 ≤ r.wind_kw - load_kw))).length) 1 : ℕ) : ℚ)⟩]
        else []) ++ gwLoop load_kw mbm lastTs ys none := by
  intro xs
  induction xs with
  | nil =>
    intro s acc c hd
    cases hd
  | cons x xs ih =>
    intro s acc c hd
    rw [List.dropWhile_cons] at hd
    split_ifs at hd with hpx
    · have hx : 0 ≤ x.wind_kw - load_kw := by simpa using hpx
      have hpred : (fun r => decide (0 ≤ r.wind_kw - load_kw)) x = true := by
        simpa using hx
      simp only [gwLoop]
      rw [if_pos hx, ih s (acc + (x.wind_kw - load_kw)) (c + 1) hd,
        @List.takeWhile_cons_of_pos Row
          (fun r => decide (0 ≤ r.wind_kw - load_kw)) x xs hpred]
      congr 1
      refine ifWindow_congr _ _ _ ?_ ?_
      · simp only [List.map_cons, List.sum_cons]
        ring
      · congr 1
        simp only [List.length_cons]
        omega
    · have hx : ¬ (0 ≤ x.wind_kw - load_kw) := by simpa using hpx
      injection hd with h1 h2
      subst h1
      subst h2
      simp only [gwLoop]
      rw [if_neg hx, @List.takeWhile_cons_of_neg Row
        (fun r => decide (0 ≤ r.wind_kw - load_kw)) x xs (by simpa using hx)]
      simp

/-- The scan of `green_windows` computes exactly one window per maximal
non-negative-margin run, as described by `runsSplit`/`emitRun`. -/
lemma gwLoop_closed (load_kw : ℚ) (mbm : ℤ) (lastTs : ℚ) (xs : List Row) :
    gwLoop load_kw mbm lastTs xs none =
      (runsSplit load_kw xs).filterMap (emitRun load_kw mbm lastTs) := by
  cases xs with
  | nil => simp [gwLoop, runsSplit]
  | cons x l =>
    by_cases hx : 0 ≤ x.wind_kw - load_kw
    · simp only [gwLoop]
      rw [if_pos hx]
      cases hdrop : l.dropWhile (fun r => decide (0 ≤ r.wind_kw - load_kw)) with
      | nil =>
        have htake : l.takeWhile (fun r => decide (0 ≤ r.wind_kw - load_kw))
            = l := by
          have h2 := List.takeWhile_append_dropWhile
            (p := fun r => decide (0 ≤ r.wind_kw - load_kw)) (l := l)
          rw [hdrop, List.append_nil] at h2
          exact h2
        rw [gwLoop_open_nil load_kw mbm lastTs l x.ts (x.wind_kw - load_kw) 1
          hdrop, runsSplit_pos_nil load_kw x l hx hdrop, htake]
        by_cases hdur : mbm ≤ ⌊(lastTs - x.ts) / 60⌋
        · have hemit : emitRun load_kw mbm lastTs (x :: l, none) =
              some ⟨x.ts, lastTs,
                (((x :: l).map (fun r => r.wind_kw - load_kw)).sum) /
                  (((x :: l).length : ℕ) : ℚ)⟩ := by
            rw [emitRun_none]
            simp only [List.headD_cons]
            rw [if_pos hdur]
          rw [filterMap_cons_some_eq _ _ _ _ hemit, List.filterMap_nil,
            if_pos hdur]
          have hA : x.wind_kw - load_kw +
              (l.map (fun r => r.wind_kw - load_kw)).sum =
              ((x :: l).map (fun r => r.wind_kw - load_kw)).sum := by
            simp
          have hB : ((max (1 + l.length) 1 : ℕ) : ℚ) =
              (((x :: l).length : ℕ) : ℚ) := by
            congr 1
            simp only [List.length_cons]
            omega
          rw [hA, hB]
        · have hemit : emitRun load_kw mbm lastTs (x :: l, none) = none := by
            rw [emitRun_none]
            simp only [List.headD_cons]
            rw [if_neg hdur]
          rw [filterMap_cons_none_eq _ _ _ hemit, List.filterMap_nil,
            if_neg hdur]
      | cons y ys =>
        have hy : ¬ (0 ≤ y.wind_kw - load_kw) := by
          simpa using dropWhile_head_false hdrop
        have hlen : ys.length < (x :: l).length := by
          have hle := (List.dropWhile_sublist
            (fun r => decide (0 ≤ r.wind_kw - load_kw)) (l := l)).length_le
          rw [hdrop] at hle
          simp only [List.length_cons] at hle ⊢
          omega
        have hys : gwLoop load_kw mbm lastTs ys none =
            (runsSplit load_kw ys).filterMap (emitRun load_kw mbm lastTs) :=
          gwLoop_closed load_kw mbm lastTs ys
        rw [gwLoop_open_cons load_kw mbm lastTs y ys l x.ts
          (x.wind_kw - load_kw) 1 hdrop,
          runsSplit_pos_cons load_kw x l y ys hx hdrop,
          runsSplit_neg load_kw y ys hy]
        by_cases hdur : mbm ≤ ⌊(y.ts - x.ts) / 60⌋
        · have hemit : emitRun load_kw mbm lastTs
              (x :: l.takeWhile (fun r => decide (0 ≤ r.wind_kw - load_kw)),
                some y) =
              some ⟨x.ts, y.ts,
                (((x :: l.takeWhile
                    (fun r => decide (0 ≤ r.wind_kw - load_kw))).map
                  (fun r => r.wind_kw - load_kw)).sum) /
                  (((x :: l.takeWhile
                    (fun r => decide (0 ≤ r.wind_kw - load_kw))).length :
                      ℕ) : ℚ)⟩ := by
            rw [emitRun_some]
            simp only [List.headD_cons]
            rw [if_pos hdur]
          rw [filterMap_cons_some_eq _ _ _ _ hemit, hys, if_pos hdur,
            List.singleton_append]
          have hA : x.wind_kw - load_kw +
              ((l.takeWhile (fun r => decide (0 ≤ r.wind_kw - load_kw))).map
                (fun r => r.wind_kw - load_kw)).sum =
              ((x :: l.takeWhile
                  (fun r => decide (0 ≤ r.wind_kw - load_kw))).map
                (fun r => r.wind_kw - load_kw)).sum := by
            simp
          have hB : ((max (1 + (l.takeWhile
                (fun r => decide (0 ≤ r.wind_kw - load_kw))).length) 1 : ℕ) :
                ℚ) =
              (((x :: l.takeWhile
                  (fun r => decide (0 ≤ r.wind_kw - load_kw))).length : ℕ) :
                ℚ) := by
            congr 1
            simp only [List.length_cons]
            omega
          rw [hA, hB]
        · have hemit : emitRun load_kw mbm lastTs
              (x :: l.takeWhile (fun r => decide (0 ≤ r.wind_kw - load_kw)),
                some y) = none := by
            rw [emitRun_some]
            simp only [List.headD_cons]
            rw [if_neg hdur]
          rw [filterMap_cons_none_eq _ _ _ hemit, hys, if_neg hdur,
            List.nil_append]
    · have hlen : l.length < (x :: l).length := by
        simp only [List.length_cons]
        omega
      simp only [gwLoop]
      rw [if_neg hx, runsSplit_neg load_kw x l hx]
      exact gwLoop_closed load_kw mbm lastTs l
termination_by xs.length
decreasing_by
  all_goals omega

/-- **C9.** `green_windows` emits exactly one window per maximal run of
consecutive samples with margin ≥ 0 whose floored whole-minute duration
reaches `min_block_minutes`, ending at the terminating sample's timestamp
(or, for a run still open at the end of the series, at the final timestamp),
with `avg_margin_kw` the arithmetic mean of the run's margins; empty input
yields no windows. -/
theorem green_windows_eq_spec (forecast : List Row) (load_kw : ℚ)
    (min_block_minutes : ℤ) :
    green_windows forecast load_kw min_block_minutes =
      green_windows_spec forecast load_kw min_block_minutes := by
  unfold green_windows green_windows_spec
  split_ifs with hf
  · subst hf
    simp [runsSplit]
  · exact gwLoop_closed load_kw min_block_minutes _ forecast

/-- **C5, amended.** A target `tr` at or below the current SOC is mapped to
`{'eta': start, 'reachable': True}` — exactly the entry written before the
simulation loop starts, untouched by any simulation step — *provided* no
other target strictly above the SOC has the same 6-decimal rounding `tr`
(such a collision lets the loop overwrite the entry). -/
theorem simulate_until_targets_le_soc (b : BatterySim) (forecast : List Row)
    (targets_kwh : List ℚ) (base_load_kw start tr : ℚ)
    (htr : tr ∈ targets_kwh) (hle : tr ≤ b.soc)
    (hnc : ∀ t' ∈ targets_kwh, b.soc < t' → round6 t' ≠ tr) :
    (b.simulate_until_targets forecast targets_kwh base_load_kw start).2 tr =
      some ⟨some start, true⟩ := by
  have hmem : tr ∉ remaining0 targets_kwh b.soc := by
    intro hc
    unfold remaining0 at hc
    rw [List.mem_mergeSort, List.mem_dedup, List.mem_map] at hc
    obtain ⟨u, hu, hr⟩ := hc
    rw [List.mem_filter] at hu
    exact hnc u hu.1 (by simpa using hu.2) hr
  have hinit : (fun k =>
      if k ∈ targets_kwh ∧ k ≤ b.soc then some (⟨some start, true⟩ : TargetInfo)
      else none) tr = some ⟨some start, true⟩ := if_pos ⟨htr, hle⟩
  have hrun := untilLoop_preserves forecast base_load_kw tr ⟨some start, true⟩
    ⟨b, 0, start, remaining0 targets_kwh b.soc,
      fun k => if k ∈ targets_kwh ∧ k ≤ b.soc then some ⟨some start, true⟩ else none⟩
    ⟨hinit, hmem⟩
  unfold BatterySim.simulate_until_targets
  exact foldl_mapSetdefault_some _ _ hrun

/-- Witness for `simulate_until_targets_le_soc` at a concrete instance. -/
theorem simulate_until_targets_le_soc_witness :
    ((BatterySim.init 10 5).simulate_until_targets [] [3] 0 7).2 3 =
      some ⟨some 7, true⟩ := by
  refine simulate_until_targets_le_soc _ [] [3] 0 7 3 (by simp) ?_ ?_
  · show (3:ℚ) ≤ (BatterySim.init 10 5).soc
    unfold BatterySim.init
    norm_num
  · intro u hu hgt
    rw [List.mem_singleton] at hu
    subst hu
    unfold BatterySim.init at hgt
    norm_num at hgt

/-- Python `round(5.0000004, 6) = 5.0`: the collision used by the C5
counterexample. -/
lemma round6_collision : round6 (5 + 4/10^7) = 5 := by
  unfold round6 roundHalfEven
  have h1 : ((5:ℚ) + 4/10^7) * 10^6 = 25000002/5 := by norm_num
  rw [h1]
  have h2 : ⌊(25000002:ℚ)/5⌋ = 5000000 := by norm_num
  rw [h2]
  norm_num

/-- **C5, counterexample.** With SOC 5, targets `[5, 5.0000004]`, empty
forecast, zero load and `start = 0`, the returned entry for the target `5`
(which is at the current SOC) carries `eta = 600 s = start + SIM_STEP`, not
`eta = start`: the second target rounds to the same key `5.0` and the loop's
stamp overwrites the immediate entry after one simulation step. -/
theorem simulate_until_targets_counterexample :
    ((BatterySim.init 10 5).simulate_until_targets [] [5, 5 + 4/10^7] 0 0).2 5 =
      some ⟨some 600, true⟩ ∧ ((600:ℚ) ≠ 0) := by
  refine ⟨?_, by norm_num⟩
  have hb : BatterySim.init 10 5 = ⟨10, 5⟩ := by
    unfold BatterySim.init
    norm_num
  have hrem : remaining0 [5, 5 + 4/10^7] (5:ℚ) = [5] := by
    unfold remaining0
    have hf : List.filter (fun t => decide ((5:ℚ) < t)) [5, 5 + 4/10^7] = [5 + 4/10^7] := by
      rw [List.filter_cons, List.filter_cons, List.filter_nil]
      rw [decide_eq_false (by norm_num), decide_eq_true (by norm_num)]
      simp
    rw [hf, List.map_cons, List.map_nil, round6_collision]
    simp
  have hstep : BatterySim.step ⟨10, 5⟩ (genAt [] 0) 0 SIM_STEP = ⟨10, 5⟩ := by
    unfold BatterySim.step genAt
    norm_num [SIM_STEP, CHARGE_EFF, DISCHARGE_EFF]
  have hnext : ∀ R0 : ℚ → Option TargetInfo,
      untilNext [] 0 ⟨⟨10, 5⟩, 0, 0, [5], R0⟩ =
        .inl (⟨10, 5⟩, mapUpdate R0 5 ⟨some ((0:ℚ) + SIM_STEP), true⟩) := by
    intro R0
    have hadv : advanceIdx [] (0:ℚ) 0 = 0 := by simp [advanceIdx, advanceIdxGo]
    simp only [untilNext, hadv, hstep]
    norm_num [List.filter, List.foldl]
  unfold BatterySim.simulate_until_targets
  rw [hb]
  dsimp only
  rw [hrem]
  rw [LoopSpec.run_inl _ (hnext _)]
  simp only [List.foldl]
  unfold mapSetdefault mapUpdate
  norm_num [SIM_STEP]

/-- **C3, counterexample.** The SOC invariant `0 ≤ soc ≤ capacity` is not
preserved under arbitrary arguments: a battery constructed with capacity 10
and SOC 5, stepped once with `load_kw = 100` and a negative time delta
`dt = -3600 s`, ends with `soc = 2095/19 ≈ 110.3 > capacity`. -/
theorem socInv_step_counterexample :
    ¬ (((BatterySim.init 10 5).step 0 100 (-3600)).soc ≤
        ((BatterySim.init 10 5).step 0 100 (-3600)).capacity) := by
  unfold BatterySim.step BatterySim.init
  norm_num [CHARGE_EFF, DISCHARGE_EFF]

/-- **C3, amended.** For every battery constructed with a *non-negative*
capacity, the invariant `0 ≤ soc ≤ capacity` is established by the constructor
and preserved by every `step` call with a *non-negative* time delta, by
`status` (which reports the stored SOC and capacity unchanged), and by
`simulate_runtime` (whose steps all use the fixed positive `SIM_STEP`). -/
theorem battery_socInv_preserved :
    (∀ capacity_kwh soc_kwh : ℚ, 0 ≤ capacity_kwh →
      SocInv (BatterySim.init capacity_kwh soc_kwh)) ∧
    (∀ (b : BatterySim) (gen_kw load_kw dt : ℚ), SocInv b → 0 ≤ dt →
      SocInv (b.step gen_kw load_kw dt)) ∧
    (∀ (b : BatterySim) (as_of : ℚ), SocInv b →
      (b.status as_of).now_soc_kwh = b.soc ∧
      0 ≤ (b.status as_of).now_soc_kwh ∧
      (b.status as_of).now_soc_kwh ≤ (b.status as_of).capacity_kwh) ∧
    (∀ (b : BatterySim) (forecast : List Row) (load_kw start : ℚ), SocInv b →
      SocInv (b.simulate_runtime forecast load_kw start).1) := by
  refine ⟨fun c s hc => socInv_init hc s,
    fun b g l dt hb hdt => socInv_step hb hdt g l,
    fun b a hb => ⟨rfl, hb.1, hb.2⟩,
    fun b f l st hb => socInv_simulate_runtime hb f l st⟩

/-- Witness for `battery_socInv_preserved` at a concrete instance. -/
theorem battery_socInv_preserved_witness :
    SocInv ((BatterySim.init 10 5).step 1 2 SIM_STEP) :=
  battery_socInv_preserved.2.1 (BatterySim.init 10 5) 1 2 SIM_STEP
    (battery_socInv_preserved.1 10 5 (by norm_num))
    (by norm_num [SIM_STEP])

/-- **C2.** `step(gen_kw, load_kw, dt)` over `h = dt/3600` hours leaves the SOC
at `max(0, min(C, s + max(0,gen)*CHARGE_EFF*h) - max(0,load)*h/DISCHARGE_EFF)`:
charging is applied first and capped at capacity, then discharging is applied
and floored at zero, sequentially rather than netted.  The capacity is
unchanged. -/
theorem step_charge_then_discharge (b : BatterySim) (gen_kw load_kw dt : ℚ) :
    (b.step gen_kw load_kw dt).soc =
      max 0 (min b.capacity (b.soc + max 0 gen_kw * CHARGE_EFF * (dt / 3600))
               - max 0 load_kw * (dt / 3600) / DISCHARGE_EFF) ∧
    (b.step gen_kw load_kw dt).capacity = b.capacity := by
  constructor <;> rfl

end Microgrid
